import Mathlib

/-!
Shallow embedding of `src/d_ary_heap.py` (class `DAryHeap`) and proofs about it.

The Python class stores a list `_heap`, a tracked logical size `_heap_size`
and a branching factor `_children`.  Keys are Python ints, modelled as `Int`.
List indexing `heap[i]` is modelled with `List.getD heap i 0`; every verified
execution path only dereferences in-range indices, so the default is inert.
Python's `raise` statements are modelled by returning an error value together
with the (unchanged) instance state.

The two while-loops and the recursive `max_heapify` descend along strictly
monotone index chains, so each is written with an explicit fuel argument that
is large enough by construction (`index` for the upward loops, `size` for the
downward recursion); lemmas carry the corresponding sufficiency hypothesis.
-/

namespace DAryHeap

/-- Keys stored in the heap (Python ints). -/
abbrev Key := Int

/-- The exception classes of the module: IllegalChildrenError, IllegalKeyError,
IndexError and HeapUnderflowError. -/
inductive HeapError where
  | IllegalChildren
  | IllegalKey
  | IndexOutOfRange
  | HeapUnderflow
deriving Repr, DecidableEq

/-- The state of a `DAryHeap` instance: fields `_heap`, `_heap_size`, `_children`. -/
structure Heap where
  _heap : List Key
  _heap_size : Nat
  _children : Nat
deriving Repr, DecidableEq

/-- Method `__init__(heap_size, children)`: raises IllegalChildrenError when
`children < 2`, otherwise stores an empty list, the given size and `children`. -/
def init (heap_size children : Nat) : Except HeapError Heap :=
  if children < 2 then .error .IllegalChildren
  else .ok { _heap := [], _heap_size := heap_size, _children := children }

/-- Method `_swap(array, index_a, index_b)`:
`temp = array[a]; array[a] = array[b]; array[b] = temp`. -/
def _swap (array : List Key) (index_a index_b : Nat) : List Key :=
  (array.set index_a (array.getD index_b 0)).set index_b (array.getD index_a 0)

/-- Method `k_child(k_child, parent_index)` returns
`self._children * parent_index + k_child` (Python int arithmetic, hence `Int`). -/
def k_child (h : Heap) (k parent_index : Int) : Int :=
  (h._children : Int) * parent_index + k

/-- Method `parent(child_index)` returns `(child_index - 1) // self._children`,
Python floor division, hence `Int.fdiv`. -/
def parent (h : Heap) (child_index : Int) : Int :=
  (child_index - 1).fdiv (h._children : Int)

/-- Method `_find_max(heap, parent_index)`: the for-loop over `k in range(1, children+1)`
keeping the index of the largest value seen, starting from `parent_index`;
a child is considered only when `child < self._heap_size` and
`heap[child] > heap[max_value]` (the conjunction mirrors Python's
short-circuit `and`).  `child` is `k_child(k, parent_index)` written out on `Nat`. -/
def _find_max (d size : Nat) (heap : List Key) (parent_index : Nat) : Nat :=
  (List.range' 1 d).foldl
    (fun max_value k =>
      if d * parent_index + k < size ∧ heap.getD max_value 0 < heap.getD (d * parent_index + k) 0 then
        d * parent_index + k
      else max_value)
    parent_index

/-- The recursion of `max_heapify` strictly increases the node index while any
selected child stays below `size`, so `size` steps of fuel always suffice. -/
def max_heapify_fuel (d size : Nat) : Nat → List Key → Nat → List Key
  | 0, heap, _ => heap
  | fuel + 1, heap, node =>
    let largest := _find_max d size heap node
    if largest ≠ node then
      max_heapify_fuel d size fuel (_swap heap node largest) largest
    else heap

/-- Method `max_heapify(heap, node)`: `largest = _find_max(heap, node)`; when
`largest != node`, swap the two positions and recurse at `largest`. -/
def max_heapify (d size : Nat) (heap : List Key) (node : Nat) : List Key :=
  max_heapify_fuel d size size heap node

/-- The indices swept by `build_max_heap`:
`range(self._heap_size // 2 - 1, -1, -1)`, i.e. `size // 2 - 1` down to `0`. -/
def build_indices (heap_size : Nat) : List Nat :=
  (List.range (heap_size / 2)).reverse

/-- The sweep prescribed by the specification text: `size // d - 1` down to `0`.
This definition follows the spec's words, for comparison with `build_indices`. -/
def build_indices_spec (d heap_size : Nat) : List Nat :=
  (List.range (heap_size / d)).reverse

/-- Method `build_max_heap(data)`: `self._heap = data`, then `max_heapify` at each
index of the sweep.  `self._heap_size` is read but not written. -/
def build_max_heap (h : Heap) (data : List Key) : Heap :=
  { h with
    _heap := (build_indices h._heap_size).foldl
      (fun heap i => max_heapify h._children h._heap_size heap i) data }

/-- The while-loop shared by `increase_key` and `max_heap_insert`:
`while index > 0 and key > self._heap[self.parent(index)]: swap; index = parent`.
For `index ≥ 1` Python's `(index-1) // d` equals `Nat` division `(index-1) / d`
(see `parent_eq_nat_parent`).  The index strictly decreases, so fuel `index`
suffices. -/
def sift_upF (d : Nat) (key : Key) : Nat → List Key → Nat → List Key
  | 0, heap, _ => heap
  | fuel + 1, heap, index =>
    if 0 < index ∧ heap.getD ((index - 1) / d) 0 < key then
      sift_upF d key fuel (_swap heap index ((index - 1) / d)) ((index - 1) / d)
    else heap

/-- The upward loop of `increase_key` / `max_heap_insert`, with enough fuel. -/
def sift_up (d : Nat) (key : Key) (heap : List Key) (index : Nat) : List Key :=
  sift_upF d key index heap index

/-- Method `increase_key(index, key)`: raises IllegalKeyError when
`key <= self._heap[index]` (before any mutation), otherwise
`self._heap[index] = key` followed by the upward swap loop. -/
def increase_key (h : Heap) (index : Nat) (key : Key) : Except HeapError Unit × Heap :=
  if key ≤ h._heap.getD index 0 then (.error .IllegalKey, h)
  else
    (.ok (), { h with _heap := sift_up h._children key (h._heap.set index key) index })

/-- Method `max_heap_insert(key)`: `self._heap_size += 1; self._heap.append(key);
index = self._heap_size - 1`, then the same upward loop as `increase_key`. -/
def max_heap_insert (h : Heap) (key : Key) : Heap :=
  { h with
    _heap := sift_up h._children key (h._heap ++ [key]) (h._heap_size + 1 - 1),
    _heap_size := h._heap_size + 1 }

/-- The upward while-loop of `delete_key`:
`while 1 <= key < self._heap_size and self._heap[self.parent(key)] < self._heap[key]`.
Returns the heap together with the final index.  Fuel `key` suffices since the
index strictly decreases. -/
def delete_sift_upF (d size : Nat) : Nat → List Key → Nat → List Key × Nat
  | 0, heap, key => (heap, key)
  | fuel + 1, heap, key =>
    if 1 ≤ key ∧ key < size ∧ heap.getD ((key - 1) / d) 0 < heap.getD key 0 then
      delete_sift_upF d size fuel (_swap heap key ((key - 1) / d)) ((key - 1) / d)
    else (heap, key)

/-- The upward loop of `delete_key`, with enough fuel. -/
def delete_sift_up (d size : Nat) (heap : List Key) (key : Nat) : List Key × Nat :=
  delete_sift_upF d size key heap key

/-- Method `delete_key(key)`: raises IndexError when `key >= self._heap_size or key < 0`
(before any mutation); otherwise `self._heap[key] = self._heap[self._heap_size-1]`,
`self._heap.pop()` (drop the last slot), `self._heap_size -= 1`, the upward loop,
then `max_heapify(self._heap, key)` at the loop's final index. -/
def delete_key (h : Heap) (key : Int) : Except HeapError Unit × Heap :=
  if (h._heap_size : Int) ≤ key ∨ key < 0 then (.error .IndexOutOfRange, h)
  else
    let k := key.toNat
    let size' := h._heap_size - 1
    let heap1 := (h._heap.set k (h._heap.getD (h._heap_size - 1) 0)).dropLast
    let p := delete_sift_up h._children size' heap1 k
    (.ok (), { h with _heap := max_heapify h._children size' p.1 p.2, _heap_size := size' })

/-- Method `extract_max()`: raises HeapUnderflowError when `self._heap_size < 1`
(before any mutation); otherwise records `self._heap[0]`, moves the last
element to position 0, pops, shrinks the size and sifts down from the root. -/
def extract_max (h : Heap) : Except HeapError Key × Heap :=
  if h._heap_size < 1 then (.error .HeapUnderflow, h)
  else
    let max_value := h._heap.getD 0 0
    let size' := h._heap_size - 1
    let heap1 := (h._heap.set 0 (h._heap.getD (h._heap_size - 1) 0)).dropLast
    (.ok max_value, { h with _heap := max_heapify h._children size' heap1 0, _heap_size := size' })

/-- The for-loop of `heap_sort`: `for i in range(size - 1, 0, -1):
swap(array, 0, i); self._heap_size -= 1; max_heapify(array, 0)` — after the
decrement the tracked size equals `i`, so the sift-down at iteration `i`
runs over the prefix of length `i`. -/
def heap_sort_loop (d : Nat) : List Key → Nat → List Key
  | array, 0 => array
  | array, i + 1 => heap_sort_loop d (max_heapify d (i + 1) (_swap array 0 (i + 1)) 0) i

/-- Method `heap_sort(array)`: `self._heap_size = len(array)`; `temp_size = self._heap_size`;
`build_max_heap(array)` (which makes `self._heap` the array itself); the
extraction loop; finally `self._heap_size = temp_size`.  Returns the final
instance state together with the array contents. -/
def heap_sort (h : Heap) (array : List Key) : Heap × List Key :=
  let h1 : Heap := { h with _heap_size := array.length }
  let temp_size := h1._heap_size
  let h2 := build_max_heap h1 array
  let sorted := heap_sort_loop h1._children h2._heap (h1._heap_size - 1)
  ({ h2 with _heap := sorted, _heap_size := temp_size }, sorted)

/-- The d-ary max-heap property on the first `size` positions of `heap`:
every in-range child `d*i + k` (`1 ≤ k ≤ d`) is at most its parent `i`. -/
def MaxHeapProp (d size : Nat) (heap : List Key) : Prop :=
  ∀ i < size, ∀ k < d + 1, 1 ≤ k → d * i + k < size → heap.getD (d * i + k) 0 ≤ heap.getD i 0

instance (d size : Nat) (heap : List Key) : Decidable (MaxHeapProp d size heap) :=
  inferInstanceAs (Decidable
    (∀ i < size, ∀ k < d + 1, 1 ≤ k → d * i + k < size → heap.getD (d * i + k) 0 ≤ heap.getD i 0))

/-- Relation `InSubtree d r j`: in the d-ary index tree, `j` lies in the subtree rooted
at `r` (`j` is `r` or a descendant of `r`). -/
inductive InSubtree (d : Nat) : Nat → Nat → Prop where
  | refl (r : Nat) : InSubtree d r r
  | child {r j : Nat} (k : Nat) : 1 ≤ k → k ≤ d → InSubtree d r j → InSubtree d r (d * j + k)

/-- The max-heap property restricted to parents lying in the subtree rooted at `r`. -/
def SubtreeHeap (d size : Nat) (heap : List Key) (r : Nat) : Prop :=
  ∀ j k, InSubtree d r j → j < size → 1 ≤ k → k ≤ d → d * j + k < size →
    heap.getD (d * j + k) 0 ≤ heap.getD j 0

/-- All in-range parent-child constraints whose child is not `idx`
(the invariant of the upward sift loops, part 1). -/
def SiftInvA (d size : Nat) (heap : List Key) (idx : Nat) : Prop :=
  ∀ p k, p < size → 1 ≤ k → k ≤ d → d * p + k < size → d * p + k ≠ idx →
    heap.getD (d * p + k) 0 ≤ heap.getD p 0

/-- The children of `idx` are bounded by the value at `idx`'s parent
(the invariant of the upward sift loops, part 2). -/
def SiftInvB (d size : Nat) (heap : List Key) (idx : Nat) : Prop :=
  0 < idx → ∀ k, 1 ≤ k → k ≤ d → d * idx + k < size →
    heap.getD (d * idx + k) 0 ≤ heap.getD ((idx - 1) / d) 0

/-! ### Index arithmetic on `Nat` -/

theorem parent_lt {j : Nat} (d : Nat) (hj : 1 ≤ j) : (j - 1) / d < j :=
  Nat.lt_of_le_of_lt (Nat.div_le_self _ _) (by omega)

theorem child_gt {d k : Nat} (hd : 1 ≤ d) (hk : 1 ≤ k) (p : Nat) : p < d * p + k := by
  have : p ≤ d * p := Nat.le_mul_of_pos_left p hd
  omega

theorem parent_child {d k : Nat} (hd : 1 ≤ d) (hk1 : 1 ≤ k) (hkd : k ≤ d) (p : Nat) :
    (d * p + k - 1) / d = p := by
  have h1 : d * p + k - 1 = d * p + (k - 1) := by omega
  rw [h1, Nat.mul_add_div hd]
  have h2 : (k - 1) / d = 0 := Nat.div_eq_of_lt (by omega)
  omega

theorem child_decomp {d j : Nat} (hd : 1 ≤ d) (hj : 1 ≤ j) :
    ∃ k, 1 ≤ k ∧ k ≤ d ∧ j = d * ((j - 1) / d) + k := by
  refine ⟨(j - 1) % d + 1, by omega, ?_, ?_⟩
  · have := Nat.mod_lt (j - 1) (y := d) (by omega)
    omega
  · have := Nat.div_add_mod (j - 1) d
    omega

theorem child_parent_unique {d k j p : Nat} (hd : 1 ≤ d) (hk1 : 1 ≤ k) (hkd : k ≤ d)
    (hj : d * p + k = j) : p = (j - 1) / d := by
  subst hj
  rw [parent_child hd hk1 hkd]

/-! ### `getD`, `_swap` and `dropLast` facts -/

theorem getD_set_self {l : List Key} {i : Nat} (h : i < l.length) (x : Key) :
    (l.set i x).getD i 0 = x := by
  simp [List.getD_eq_getElem?_getD, List.getElem?_set_self h]

theorem getD_set_ne {l : List Key} {i j : Nat} (h : i ≠ j) (x : Key) :
    (l.set i x).getD j 0 = l.getD j 0 := by
  simp [List.getD_eq_getElem?_getD, List.getElem?_set_ne h]

theorem length_swap (l : List Key) (a b : Nat) : (_swap l a b).length = l.length := by
  simp [_swap]

theorem getD_swap_right {l : List Key} {a b : Nat} (hb : b < l.length) :
    (_swap l a b).getD b 0 = l.getD a 0 :=
  getD_set_self (by simpa using hb) _

theorem getD_swap_left {l : List Key} {a b : Nat} (ha : a < l.length) :
    (_swap l a b).getD a 0 = l.getD b 0 := by
  rcases eq_or_ne a b with rfl | hne
  · exact getD_swap_right ha
  · rw [_swap, getD_set_ne (fun h => hne h.symm), getD_set_self ha]

theorem getD_swap_other {l : List Key} {a b c : Nat} (hca : c ≠ a) (hcb : c ≠ b) :
    (_swap l a b).getD c 0 = l.getD c 0 := by
  rw [_swap, getD_set_ne (fun h => hcb h.symm), getD_set_ne (fun h => hca h.symm)]

theorem count_swap {l : List Key} {a b : Nat} (ha : a < l.length) (hb : b < l.length)
    (x : Key) : (_swap l a b).count x = l.count x := by
  have hb' : b < (l.set a (l.getD b 0)).length := by simpa using hb
  have e1 := List.count_set (l.getD a 0) x (l.set a (l.getD b 0)) b hb'
  have e2 := List.count_set (l.getD b 0) x l a ha
  have egb : (l.set a (l.getD b 0))[b] = l.getD b 0 := by
    rw [List.getElem_set]
    split
    · rfl
    · exact (List.getD_eq_getElem l 0 hb).symm
  have ega : l.getD a 0 = l[a] := List.getD_eq_getElem l 0 ha
  have egbl : l.getD b 0 = l[b] := List.getD_eq_getElem l 0 hb
  have hca : (if l[a] = x then 1 else 0) ≤ l.count x := by
    split
    · next h => exact List.count_pos_iff.mpr (h ▸ List.getElem_mem ha)
    · omega
  have hcb : (if l[b] = x then 1 else 0) ≤ l.count x := by
    split
    · next h => exact List.count_pos_iff.mpr (h ▸ List.getElem_mem hb)
    · omega
  simp only [beq_iff_eq] at e1 e2
  rw [_swap, e1, e2, egb, ega, egbl]
  omega

theorem perm_swap {l : List Key} {a b : Nat} (ha : a < l.length) (hb : b < l.length) :
    (_swap l a b).Perm l :=
  List.perm_iff_count.mpr (count_swap ha hb)

theorem getD_dropLast {l : List Key} {j : Nat} (h : j < l.length - 1) :
    l.dropLast.getD j 0 = l.getD j 0 := by
  rw [List.dropLast_eq_take]
  simp [List.getD_eq_getElem?_getD, List.getElem?_take_of_lt h]

theorem length_dropLast (l : List Key) : l.dropLast.length = l.length - 1 := by
  simp

theorem count_dropLast {l : List Key} (h : l ≠ []) (x : Key) :
    l.count x = l.dropLast.count x + (if l.getD (l.length - 1) 0 = x then 1 else 0) := by
  have hl : 0 < l.length := List.length_pos.mpr h
  have hg : l.getD (l.length - 1) 0 = l[l.length - 1] :=
    List.getD_eq_getElem l 0 (by omega)
  conv_lhs => rw [(List.dropLast_concat_getLast h).symm]
  rw [List.count_append, List.getLast_eq_getElem, hg]
  simp [List.count_cons]

theorem getD_append_left {l : List Key} {j : Nat} (h : j < l.length) (x : Key) :
    (l ++ [x]).getD j 0 = l.getD j 0 := by
  simp [List.getD_eq_getElem?_getD, List.getElem?_append_left h]

theorem getD_append_last (l : List Key) (x : Key) : (l ++ [x]).getD l.length 0 = x := by
  simp [List.getD_eq_getElem?_getD, List.getElem?_concat_length]

/-! ### `_find_max` characterization -/

theorem find_fold_shape (d size : Nat) (heap : List Key) (r : Nat) :
    ∀ (ks : List Nat) (a : Nat),
      ks.foldl (fun max_value k =>
          if d * r + k < size ∧ heap.getD max_value 0 < heap.getD (d * r + k) 0 then d * r + k
          else max_value) a = a ∨
      ∃ k ∈ ks,
        ks.foldl (fun max_value k =>
          if d * r + k < size ∧ heap.getD max_value 0 < heap.getD (d * r + k) 0 then d * r + k
          else max_value) a = d * r + k ∧ d * r + k < size := by
  intro ks
  induction ks with
  | nil => intro a; left; rfl
  | cons k ks ih =>
    intro a
    rw [List.foldl_cons]
    by_cases hc : d * r + k < size ∧ heap.getD a 0 < heap.getD (d * r + k) 0
    · rw [if_pos hc]
      rcases ih (d * r + k) with h | ⟨k', hk', h1, h2⟩
      · exact Or.inr ⟨k, List.mem_cons_self k ks, h, hc.1⟩
      · exact Or.inr ⟨k', List.mem_cons_of_mem k hk', h1, h2⟩
    · rw [if_neg hc]
      rcases ih a with h | ⟨k', hk', h1, h2⟩
      · exact Or.inl h
      · exact Or.inr ⟨k', List.mem_cons_of_mem k hk', h1, h2⟩

theorem find_fold_le (d size : Nat) (heap : List Key) (r : Nat) :
    ∀ (ks : List Nat) (a : Nat),
      heap.getD a 0 ≤ heap.getD (ks.foldl (fun max_value k =>
          if d * r + k < size ∧ heap.getD max_value 0 < heap.getD (d * r + k) 0 then d * r + k
          else max_value) a) 0 ∧
      ∀ k ∈ ks, d * r + k < size →
        heap.getD (d * r + k) 0 ≤ heap.getD (ks.foldl (fun max_value k =>
          if d * r + k < size ∧ heap.getD max_value 0 < heap.getD (d * r + k) 0 then d * r + k
          else max_value) a) 0 := by
  intro ks
  induction ks with
  | nil => exact fun a => ⟨le_refl _, by simp⟩
  | cons k ks ih =>
    intro a
    rw [List.foldl_cons]
    by_cases hc : d * r + k < size ∧ heap.getD a 0 < heap.getD (d * r + k) 0
    · rw [if_pos hc]
      refine ⟨le_trans (le_of_lt hc.2) (ih (d * r + k)).1, ?_⟩
      intro k' hk' hlt
      rcases List.mem_cons.mp hk' with heq | hmem
      · rw [heq]
        exact (ih (d * r + k)).1
      · exact (ih (d * r + k)).2 k' hmem hlt
    · rw [if_neg hc]
      refine ⟨(ih a).1, ?_⟩
      intro k' hk' hlt
      rcases List.mem_cons.mp hk' with heq | hmem
      · rw [heq] at hlt ⊢
        have : heap.getD (d * r + k) 0 ≤ heap.getD a 0 := by
          by_contra hgt
          exact hc ⟨hlt, lt_of_not_le hgt⟩
        exact le_trans this (ih a).1
      · exact (ih a).2 k' hmem hlt

theorem find_max_shape (d size : Nat) (heap : List Key) (r : Nat) :
    _find_max d size heap r = r ∨
    ∃ k, 1 ≤ k ∧ k ≤ d ∧ _find_max d size heap r = d * r + k ∧ d * r + k < size := by
  rcases find_fold_shape d size heap r (List.range' 1 d) r with h | ⟨k, hk, h1, h2⟩
  · exact Or.inl h
  · obtain ⟨hk1, hk2⟩ := List.mem_range'_1.mp hk
    exact Or.inr ⟨k, hk1, by omega, h1, h2⟩

theorem find_max_lt (d size : Nat) (heap : List Key) (r : Nat) :
    _find_max d size heap r = r ∨
    (r < _find_max d size heap r ∧ _find_max d size heap r < size) := by
  rcases find_max_shape d size heap r with h | ⟨k, hk1, hkd, h1, h2⟩
  · exact Or.inl h
  · exact Or.inr ⟨h1 ▸ child_gt (hk1.trans hkd) hk1 r, h1 ▸ h2⟩

theorem getD_le_find_max (d size : Nat) (heap : List Key) (r : Nat) :
    heap.getD r 0 ≤ heap.getD (_find_max d size heap r) 0 :=
  (find_fold_le d size heap r (List.range' 1 d) r).1

theorem child_le_find_max (d size : Nat) (heap : List Key) (r : Nat) {k : Nat}
    (hk1 : 1 ≤ k) (hkd : k ≤ d) (hlt : d * r + k < size) :
    heap.getD (d * r + k) 0 ≤ heap.getD (_find_max d size heap r) 0 :=
  (find_fold_le d size heap r (List.range' 1 d) r).2 k
    (List.mem_range'_1.mpr ⟨hk1, by omega⟩) hlt

theorem find_max_eq_self (d size : Nat) (heap : List Key) (r : Nat)
    (h : ∀ k, 1 ≤ k → k ≤ d → d * r + k < size →
      heap.getD (d * r + k) 0 ≤ heap.getD r 0) :
    _find_max d size heap r = r := by
  have : ∀ (ks : List Nat), (∀ k ∈ ks, 1 ≤ k ∧ k ≤ d) →
      ks.foldl (fun max_value k =>
        if d * r + k < size ∧ heap.getD max_value 0 < heap.getD (d * r + k) 0 then d * r + k
        else max_value) r = r := by
    intro ks
    induction ks with
    | nil => intro; rfl
    | cons k ks ih =>
      intro hks
      rw [List.foldl_cons, if_neg, ih (fun k' hk' => hks k' (List.mem_cons_of_mem k hk'))]
      rintro ⟨hlt, hgt⟩
      obtain ⟨hk1, hkd⟩ := hks k (List.mem_cons_self k ks)
      exact absurd (h k hk1 hkd hlt) (not_le.mpr hgt)
  exact this (List.range' 1 d) (fun k hk => by
    obtain ⟨h1, h2⟩ := List.mem_range'_1.mp hk
    exact ⟨h1, by omega⟩)

/-! ### The subtree relation -/

theorem InSubtree.le {d r j : Nat} (h : InSubtree d r j) : r ≤ j := by
  induction h with
  | refl => exact le_refl _
  | child k hk1 hkd hsub ih =>
    rename_i j'
    have := child_gt (hk1.trans hkd) hk1 j'
    omega

theorem InSubtree.trans {d r j c : Nat} (h1 : InSubtree d r j) (h2 : InSubtree d j c) :
    InSubtree d r c := by
  induction h2 with
  | refl => exact h1
  | child k hk1 hkd hsub ih => exact .child k hk1 hkd ih

theorem inSubtree_zero {d : Nat} (hd : 1 ≤ d) : ∀ j, InSubtree d 0 j := by
  intro j
  induction j using Nat.strong_induction_on with
  | _ j ih =>
    rcases Nat.eq_zero_or_pos j with rfl | hj
    · exact .refl 0
    · obtain ⟨k, hk1, hkd, hdecomp⟩ := child_decomp hd hj
      have := InSubtree.child (r := 0) k hk1 hkd (ih _ (parent_lt d hj))
      rw [hdecomp]
      exact this

theorem InSubtree.inv {d r j : Nat} (h : InSubtree d r j) (hne : r ≠ j) :
    1 ≤ j ∧ InSubtree d r ((j - 1) / d) := by
  cases h with
  | refl => exact absurd rfl hne
  | child k hk1 hkd hsub =>
    have hd : 1 ≤ d := hk1.trans hkd
    refine ⟨by omega, ?_⟩
    rw [parent_child hd hk1 hkd]
    exact hsub

theorem InSubtree.route {d r j : Nat} (h : InSubtree d r j) (hne : j ≠ r) :
    ∃ k, 1 ≤ k ∧ k ≤ d ∧ InSubtree d (d * r + k) j := by
  induction h with
  | refl => exact absurd rfl hne
  | child k hk1 hkd hsub ih =>
    rename_i p
    by_cases hp : p = r
    · subst hp
      exact ⟨k, hk1, hkd, .refl _⟩
    · obtain ⟨k', h1, h2, h3⟩ := ih hp
      exact ⟨k', h1, h2, .child k hk1 hkd h3⟩

theorem InSubtree.comparable {d a b x : Nat} (ha : InSubtree d a x) (hb : InSubtree d b x) :
    InSubtree d a b ∨ InSubtree d b a := by
  induction ha with
  | refl => exact Or.inr hb
  | child k hk1 hkd hsub ih =>
    rename_i p
    generalize hx : d * p + k = x at hb
    cases hb with
    | refl => exact Or.inl (by rw [← hx]; exact .child k hk1 hkd hsub)
    | child k' hk1' hkd' hsub' =>
      rename_i p'
      have hd : 1 ≤ d := hk1.trans hkd
      have e1 : p' = (d * p + k - 1) / d := child_parent_unique hd hk1' hkd' hx.symm
      have e2 : p = (d * p + k - 1) / d := child_parent_unique hd hk1 hkd rfl
      exact ih (by rw [e2, ← e1]; exact hsub')

/-! ### Transfer lemmas between heap properties -/

theorem subtreeHeap_transfer {d size : Nat} {heap heap' : List Key} {r : Nat}
    (hval : ∀ j, InSubtree d r j → j < size → heap'.getD j 0 = heap.getD j 0)
    (h : SubtreeHeap d size heap r) : SubtreeHeap d size heap' r := by
  intro j k hj hjs hk1 hkd hcs
  rw [hval _ hj hjs, hval _ (hj.child k hk1 hkd) hcs]
  exact h j k hj hjs hk1 hkd hcs

theorem maxHeapProp_transfer {d size : Nat} {heap heap' : List Key}
    (hval : ∀ j, j < size → heap'.getD j 0 = heap.getD j 0)
    (h : MaxHeapProp d size heap) : MaxHeapProp d size heap' := by
  intro i hi k hk hk1 hcs
  rw [hval _ hi, hval _ hcs]
  exact h i hi k hk hk1 hcs

theorem MaxHeapProp.subtree {d size : Nat} {heap : List Key}
    (h : MaxHeapProp d size heap) (r : Nat) : SubtreeHeap d size heap r :=
  fun j k _ hjs hk1 hkd hcs => h j hjs k (by omega) hk1 hcs

theorem SubtreeHeap.restrict {d size : Nat} {heap : List Key} {r c : Nat}
    (h : SubtreeHeap d size heap r) (hc : InSubtree d r c) : SubtreeHeap d size heap c :=
  fun j k hj hjs hk1 hkd hcs => h j k (hc.trans hj) hjs hk1 hkd hcs

theorem SubtreeHeap.maxHeapProp {d size : Nat} {heap : List Key} (hd : 1 ≤ d)
    (h : SubtreeHeap d size heap 0) : MaxHeapProp d size heap :=
  fun i hi k hk hk1 hcs => h i k (inSubtree_zero hd i) hi hk1 (by omega) hcs

theorem SubtreeHeap.le_root {d size : Nat} {heap : List Key} {r : Nat}
    (h : SubtreeHeap d size heap r) :
    ∀ j, InSubtree d r j → j < size → heap.getD j 0 ≤ heap.getD r 0 := by
  intro j hj
  induction hj with
  | refl => exact fun _ => le_refl _
  | child k hk1 hkd hsub ih =>
    rename_i p
    intro hjs
    have hd : 1 ≤ d := hk1.trans hkd
    have hp : p < size := lt_trans (child_gt hd hk1 p) hjs
    exact le_trans (h p k hsub hp hk1 hkd hjs) (ih hp)

/-! ### `max_heapify`: structural lemmas -/

theorem child_not_inSubtree_child {d node k1 k2 : Nat} (hk11 : 1 ≤ k1) (hk1d : k1 ≤ d)
    (hk21 : 1 ≤ k2) (hk2d : k2 ≤ d) (hne : k1 ≠ k2) :
    ¬ InSubtree d (d * node + k1) (d * node + k2) := by
  intro h
  have hd : 1 ≤ d := hk11.trans hk1d
  have hne' : d * node + k1 ≠ d * node + k2 := by omega
  obtain ⟨-, h2⟩ := h.inv hne'
  rw [parent_child hd hk21 hk2d] at h2
  have h3 := h2.le
  have h4 := child_gt hd hk11 node
  omega

theorem sibling_subtree_disjoint {d node k1 k2 x : Nat} (hk11 : 1 ≤ k1) (hk1d : k1 ≤ d)
    (hk21 : 1 ≤ k2) (hk2d : k2 ≤ d) (hne : k1 ≠ k2)
    (hx : InSubtree d (d * node + k2) x) : ¬ InSubtree d (d * node + k1) x := by
  intro hx1
  rcases hx1.comparable hx with h | h
  · exact child_not_inSubtree_child hk11 hk1d hk21 hk2d hne h
  · exact child_not_inSubtree_child hk21 hk2d hk11 hk1d hne.symm h

theorem not_inSubtree_of_lt {d c node : Nat} (h : node < c) : ¬ InSubtree d c node :=
  fun hs => absurd hs.le (by omega)

theorem max_heapify_fuel_length (d size : Nat) :
    ∀ (fuel : Nat) (heap : List Key) (node : Nat),
      (max_heapify_fuel d size fuel heap node).length = heap.length := by
  intro fuel
  induction fuel with
  | zero => intro heap node; rfl
  | succ fuel ih =>
    intro heap node
    simp only [max_heapify_fuel]
    by_cases hc : _find_max d size heap node ≠ node
    · rw [if_pos hc, ih, length_swap]
    · rw [if_neg hc]

theorem max_heapify_fuel_perm (d size : Nat) :
    ∀ (fuel : Nat) (heap : List Key) (node : Nat), size ≤ heap.length →
      (max_heapify_fuel d size fuel heap node).Perm heap := by
  intro fuel
  induction fuel with
  | zero => intro heap node _; exact List.Perm.refl _
  | succ fuel ih =>
    intro heap node hlen
    simp only [max_heapify_fuel]
    by_cases hc : _find_max d size heap node ≠ node
    · rw [if_pos hc]
      obtain ⟨hlt, hls⟩ := (find_max_lt d size heap node).resolve_left hc
      exact (ih _ _ (by rw [length_swap]; exact hlen)).trans
        (perm_swap (by omega) (by omega))
    · rw [if_neg hc]

theorem max_heapify_fuel_frame (d size : Nat) :
    ∀ (fuel : Nat) (heap : List Key) (node j : Nat), ¬ InSubtree d node j →
      (max_heapify_fuel d size fuel heap node).getD j 0 = heap.getD j 0 := by
  intro fuel
  induction fuel with
  | zero => intro heap node j _; rfl
  | succ fuel ih =>
    intro heap node j hj
    simp only [max_heapify_fuel]
    by_cases hc : _find_max d size heap node ≠ node
    · rw [if_pos hc]
      obtain ⟨k0, hk01, hk0d, hlg, -⟩ := (find_max_shape d size heap node).resolve_left hc
      have hsubc : InSubtree d node (_find_max d size heap node) := by
        rw [hlg]; exact .child k0 hk01 hk0d (.refl node)
      rw [ih _ _ _ (fun hs => hj (hsubc.trans hs)),
        getD_swap_other (fun h => hj (by rw [h]; exact .refl node))
          (fun h => hj (by rw [h]; exact hsubc))]
    · rw [if_neg hc]

theorem max_heapify_fuel_frame_ge (d size : Nat) :
    ∀ (fuel : Nat) (heap : List Key) (node j : Nat), size ≤ j →
      (max_heapify_fuel d size fuel heap node).getD j 0 = heap.getD j 0 := by
  intro fuel
  induction fuel with
  | zero => intro heap node j _; rfl
  | succ fuel ih =>
    intro heap node j hj
    simp only [max_heapify_fuel]
    by_cases hc : _find_max d size heap node ≠ node
    · rw [if_pos hc]
      obtain ⟨hlt, hls⟩ := (find_max_lt d size heap node).resolve_left hc
      rw [ih _ _ _ hj, getD_swap_other (by omega) (by omega)]
    · rw [if_neg hc]

theorem max_heapify_fuel_root (d size : Nat) (fuel : Nat) (heap : List Key) (node : Nat)
    (hlen : size ≤ heap.length) :
    (max_heapify_fuel d size (fuel + 1) heap node).getD node 0 =
      heap.getD (_find_max d size heap node) 0 := by
  simp only [max_heapify_fuel]
  by_cases hc : _find_max d size heap node ≠ node
  · rw [if_pos hc]
    obtain ⟨hlt, hls⟩ := (find_max_lt d size heap node).resolve_left hc
    rw [max_heapify_fuel_frame d size fuel _ _ _ (not_inSubtree_of_lt hlt),
      getD_swap_left (by omega)]
  · rw [if_neg hc]
    push_neg at hc
    rw [hc]

theorem max_heapify_fuel_bound (d size : Nat) :
    ∀ (fuel : Nat) (heap : List Key) (node : Nat) (B : Key), size ≤ heap.length →
      (∀ j, InSubtree d node j → j < size → heap.getD j 0 ≤ B) →
      ∀ j, InSubtree d node j → j < size →
        (max_heapify_fuel d size fuel heap node).getD j 0 ≤ B := by
  intro fuel
  induction fuel with
  | zero => intro heap node B _ hB j hj hjs; exact hB j hj hjs
  | succ fuel ih =>
    intro heap node B hlen hB j hj hjs
    simp only [max_heapify_fuel]
    by_cases hc : _find_max d size heap node ≠ node
    · rw [if_pos hc]
      obtain ⟨hlt, hls⟩ := (find_max_lt d size heap node).resolve_left hc
      obtain ⟨k0, hk01, hk0d, hlg, -⟩ := (find_max_shape d size heap node).resolve_left hc
      have hsubc : InSubtree d node (_find_max d size heap node) := by
        rw [hlg]; exact .child k0 hk01 hk0d (.refl node)
      have hswapB : ∀ x, InSubtree d node x → x < size →
          (_swap heap node (_find_max d size heap node)).getD x 0 ≤ B := by
        intro x hx hxs
        rcases eq_or_ne x node with rfl | hxn
        · rw [getD_swap_left (by omega)]
          exact hB _ hsubc hls
        · rcases eq_or_ne x (_find_max d size heap node) with rfl | hxc
          · rw [getD_swap_right (by omega)]
            exact hB node (.refl node) (by omega)
          · rw [getD_swap_other hxn hxc]
            exact hB x hx hxs
      by_cases hxin : InSubtree d (_find_max d size heap node) j
      · exact ih _ _ _ (by rw [length_swap]; exact hlen)
          (fun x hx hxs => hswapB x (hsubc.trans hx) hxs) j hxin hjs
      · rw [max_heapify_fuel_frame d size fuel _ _ _ hxin]
        exact hswapB j hj hjs
    · rw [if_neg hc]
      exact hB j hj hjs

theorem max_heapify_length (d size : Nat) (heap : List Key) (node : Nat) :
    (max_heapify d size heap node).length = heap.length :=
  max_heapify_fuel_length d size size heap node

theorem max_heapify_perm (d size : Nat) (heap : List Key) (node : Nat)
    (hlen : size ≤ heap.length) : (max_heapify d size heap node).Perm heap :=
  max_heapify_fuel_perm d size size heap node hlen

theorem max_heapify_frame (d size : Nat) (heap : List Key) (node j : Nat)
    (hj : ¬ InSubtree d node j) :
    (max_heapify d size heap node).getD j 0 = heap.getD j 0 :=
  max_heapify_fuel_frame d size size heap node j hj

theorem max_heapify_frame_ge (d size : Nat) (heap : List Key) (node j : Nat)
    (hj : size ≤ j) :
    (max_heapify d size heap node).getD j 0 = heap.getD j 0 :=
  max_heapify_fuel_frame_ge d size size heap node j hj

theorem max_heapify_root (d size : Nat) (heap : List Key) (node : Nat)
    (hlen : size ≤ heap.length) :
    (max_heapify d size heap node).getD node 0 =
      heap.getD (_find_max d size heap node) 0 := by
  cases size with
  | zero =>
    have hfm : _find_max d 0 heap node = node := by
      rcases find_max_lt d 0 heap node with h | h
      · exact h
      · omega
    rw [hfm]
    rfl
  | succ n => exact max_heapify_fuel_root d (n + 1) n heap node hlen

theorem max_heapify_bound (d size : Nat) (heap : List Key) (node : Nat) (B : Key)
    (hlen : size ≤ heap.length)
    (hB : ∀ j, InSubtree d node j → j < size → heap.getD j 0 ≤ B) :
    ∀ j, InSubtree d node j → j < size →
      (max_heapify d size heap node).getD j 0 ≤ B :=
  max_heapify_fuel_bound d size size heap node B hlen hB

theorem max_heapify_no_op (d size : Nat) (heap : List Key) (node : Nat)
    (h : ∀ k, 1 ≤ k → k ≤ d → d * node + k < size →
      heap.getD (d * node + k) 0 ≤ heap.getD node 0) :
    max_heapify d size heap node = heap := by
  have hfm := find_max_eq_self d size heap node h
  cases size with
  | zero => rfl
  | succ n =>
    simp only [max_heapify, max_heapify_fuel]
    rw [if_neg (fun hne => hne hfm)]

/-! ### `max_heapify`: correctness -/

theorem max_heapify_fuel_subtree (d size : Nat) :
    ∀ (fuel : Nat) (heap : List Key) (node : Nat), size - node ≤ fuel → size ≤ heap.length →
      (∀ k, 1 ≤ k → k ≤ d → d * node + k < size → SubtreeHeap d size heap (d * node + k)) →
      SubtreeHeap d size (max_heapify_fuel d size fuel heap node) node := by
  intro fuel
  induction fuel with
  | zero =>
    intro heap node hfuel hlen hch j k hj hjs hk1 hkd hcs
    have := hj.le
    omega
  | succ fuel ih =>
    intro heap node hfuel hlen hch
    simp only [max_heapify_fuel]
    by_cases hc : _find_max d size heap node ≠ node
    case neg =>
      rw [if_neg hc]
      push_neg at hc
      intro j k hj hjs hk1 hkd hcs
      rcases eq_or_ne j node with rfl | hjn
      · have hcl := child_le_find_max d size heap j hk1 hkd hcs
        rwa [hc] at hcl
      · obtain ⟨k', hk1', hkd', hsub'⟩ := hj.route hjn
        have hc'lt : d * node + k' ≤ j := hsub'.le
        exact hch k' hk1' hkd' (by omega) j k hsub' hjs hk1 hkd hcs
    case pos =>
      rw [if_pos hc]
      obtain ⟨k0, hk01, hk0d, hlg, hlgs⟩ := (find_max_shape d size heap node).resolve_left hc
      rw [hlg]
      have hd : 1 ≤ d := hk01.trans hk0d
      have hnltc : node < d * node + k0 := child_gt hd hk01 node
      have hns : node < size := lt_trans hnltc hlgs
      have hsubc : InSubtree d node (d * node + k0) := .child k0 hk01 hk0d (.refl node)
      have hSc : SubtreeHeap d size heap (d * node + k0) := hch k0 hk01 hk0d hlgs
      have hrootle : heap.getD node 0 ≤ heap.getD (d * node + k0) 0 := by
        have h0 := getD_le_find_max d size heap node
        rwa [hlg] at h0
      have hchle : ∀ k, 1 ≤ k → k ≤ d → d * node + k < size →
          heap.getD (d * node + k) 0 ≤ heap.getD (d * node + k0) 0 := by
        intro k h1 h2 h3
        have h0 := child_le_find_max d size heap node h1 h2 h3
        rwa [hlg] at h0
      have hvalc : (_swap heap node (d * node + k0)).getD node 0 = heap.getD (d * node + k0) 0 :=
        getD_swap_left (by omega)
      have hvaln : (_swap heap node (d * node + k0)).getD (d * node + k0) 0 = heap.getD node 0 :=
        getD_swap_right (by omega)
      have hch' : ∀ k, 1 ≤ k → k ≤ d → d * (d * node + k0) + k < size →
          SubtreeHeap d size (_swap heap node (d * node + k0)) (d * (d * node + k0) + k) := by
        intro k hk1 hkd hks
        refine subtreeHeap_transfer ?_ (hSc.restrict (.child k hk1 hkd (.refl _)))
        intro x hx hxs
        have hcx := hx.le
        have hgt := child_gt hd hk1 (d * node + k0)
        exact getD_swap_other (by omega) (by omega)
      have hIH : SubtreeHeap d size
          (max_heapify_fuel d size fuel (_swap heap node (d * node + k0)) (d * node + k0))
          (d * node + k0) :=
        ih (_swap heap node (d * node + k0)) (d * node + k0) (by omega)
          (by rw [length_swap]; exact hlen) hch'
      have hboundpre : ∀ x, InSubtree d (d * node + k0) x → x < size →
          (_swap heap node (d * node + k0)).getD x 0 ≤ heap.getD (d * node + k0) 0 := by
        intro x hx hxs
        rcases eq_or_ne x (d * node + k0) with rfl | hxc
        · rw [hvaln]
          exact hrootle
        · have hcx : d * node + k0 < x := lt_of_le_of_ne hx.le (fun he => hxc he.symm)
          rw [getD_swap_other (by omega) hxc]
          exact hSc.le_root x hx hxs
      have hfinroot : ∀ x, InSubtree d (d * node + k0) x → x < size →
          (max_heapify_fuel d size fuel (_swap heap node (d * node + k0)) (d * node + k0)).getD x 0
            ≤ heap.getD (d * node + k0) 0 :=
        max_heapify_fuel_bound d size fuel _ _ _ (by rw [length_swap]; exact hlen) hboundpre
      have hframe : ∀ x, ¬ InSubtree d (d * node + k0) x →
          (max_heapify_fuel d size fuel (_swap heap node (d * node + k0)) (d * node + k0)).getD x 0
            = (_swap heap node (d * node + k0)).getD x 0 :=
        fun x hx => max_heapify_fuel_frame d size fuel _ _ x hx
      have hfn : (max_heapify_fuel d size fuel (_swap heap node (d * node + k0))
          (d * node + k0)).getD node 0 = heap.getD (d * node + k0) 0 := by
        rw [hframe node (not_inSubtree_of_lt hnltc), hvalc]
      intro j k hj hjs hk1 hkd hcs
      rcases eq_or_ne j node with rfl | hjn
      · rw [hfn]
        rcases eq_or_ne (d * j + k) (d * j + k0) with hec | hnec
        · rw [hec]
          exact hfinroot _ (.refl _) hlgs
        · have hknk0 : k ≠ k0 := by omega
          have hnotin : ¬ InSubtree d (d * j + k0) (d * j + k) :=
            child_not_inSubtree_child hk01 hk0d hk1 hkd hknk0.symm
          rw [hframe _ hnotin,
            getD_swap_other (by have := child_gt hd hk1 j; omega) hnec]
          exact hchle k hk1 hkd hcs
      · obtain ⟨k', hk1', hkd', hsub'⟩ := hj.route hjn
        rcases eq_or_ne k' k0 with rfl | hk'ne
        · exact hIH j k hsub' hjs hk1 hkd hcs
        · have hc'j : d * node + k' ≤ j := hsub'.le
          have hc's : d * node + k' < size := by omega
          have hnotj : ¬ InSubtree d (d * node + k0) j :=
            sibling_subtree_disjoint hk01 hk0d hk1' hkd' hk'ne.symm hsub'
          have hsubcj : InSubtree d (d * node + k') (d * j + k) := hsub'.child k hk1 hkd
          have hnotcj : ¬ InSubtree d (d * node + k0) (d * j + k) :=
            sibling_subtree_disjoint hk01 hk0d hk1' hkd' hk'ne.symm hsubcj
          have hgtnode : node < d * node + k' := child_gt hd hk1' node
          have hjnenode : j ≠ node := by omega
          have hcjnenode : d * j + k ≠ node := by
            have := child_gt hd hk1 j
            omega
          have hjnec : j ≠ d * node + k0 := by
            intro he
            exact hnotj (by rw [he]; exact .refl _)
          have hcjnec : d * j + k ≠ d * node + k0 := by
            intro he
            exact hnotcj (by rw [he]; exact .refl _)
          rw [hframe j hnotj, hframe _ hnotcj, getD_swap_other hjnenode hjnec,
            getD_swap_other hcjnenode hcjnec]
          exact hch k' hk1' hkd' hc's j k hsub' hjs hk1 hkd hcs

theorem max_heapify_subtree (d size : Nat) (heap : List Key) (node : Nat)
    (hlen : size ≤ heap.length)
    (hch : ∀ k, 1 ≤ k → k ≤ d → d * node + k < size →
      SubtreeHeap d size heap (d * node + k)) :
    SubtreeHeap d size (max_heapify d size heap node) node :=
  max_heapify_fuel_subtree d size size heap node (Nat.sub_le _ _) hlen hch

/-! ### `build_max_heap` correctness -/

theorem build_fold_subtree (d size : Nat) :
    ∀ (n : Nat) (heap : List Key), size ≤ heap.length →
      (∀ j, n ≤ j → SubtreeHeap d size heap j) →
      (∀ j, SubtreeHeap d size
        ((List.range n).reverse.foldl (fun l i => max_heapify d size l i) heap) j)
      ∧ ((List.range n).reverse.foldl (fun l i => max_heapify d size l i) heap).Perm heap := by
  intro n
  induction n with
  | zero =>
    intro heap hlen hinv
    exact ⟨fun j => hinv j (Nat.zero_le j), List.Perm.refl _⟩
  | succ n ih =>
    intro heap hlen hinv
    have hrw : (List.range (n + 1)).reverse = n :: (List.range n).reverse := by
      rw [List.range_succ, List.reverse_append, List.reverse_singleton]
      rfl
    rw [hrw, List.foldl_cons]
    have hch : ∀ k, 1 ≤ k → k ≤ d → d * n + k < size →
        SubtreeHeap d size heap (d * n + k) := by
      intro k hk1 hkd hks
      exact hinv _ (by have := child_gt (hk1.trans hkd) hk1 n; omega)
    have hstep : ∀ j, n ≤ j → SubtreeHeap d size (max_heapify d size heap n) j := by
      intro j hj
      rcases eq_or_ne j n with rfl | hjn
      · exact max_heapify_subtree d size heap j hlen hch
      · by_cases hin : InSubtree d n j
        · exact (max_heapify_subtree d size heap n hlen hch).restrict hin
        · refine subtreeHeap_transfer ?_ (hinv j (by omega))
          intro x hx hxs
          refine max_heapify_frame d size heap n x ?_
          intro hnx
          rcases hnx.comparable hx with hcon | hcon
          · exact hin hcon
          · exact absurd hcon.le (by omega)
    have hlen' : size ≤ (max_heapify d size heap n).length := by
      rw [max_heapify_length]
      exact hlen
    obtain ⟨hall, hperm⟩ := ih (max_heapify d size heap n) hlen' hstep
    exact ⟨hall, hperm.trans (max_heapify_perm d size heap n hlen)⟩

theorem build_base_subtree (d size : Nat) (hd : 2 ≤ d) (data : List Key) :
    ∀ j, size / 2 ≤ j → SubtreeHeap d size data j := by
  intro j hj x k hx hxs hk1 hkd hcs
  exfalso
  have hjx : j ≤ x := hx.le
  have hdx : 2 * x ≤ d * x := Nat.mul_le_mul_right x hd
  omega

theorem build_max_heap_heap (h : Heap) (data : List Key) (hd : 2 ≤ h._children)
    (hlen : h._heap_size ≤ data.length) :
    MaxHeapProp h._children h._heap_size (build_max_heap h data)._heap
    ∧ ((build_max_heap h data)._heap).Perm data := by
  have hmain := build_fold_subtree h._children h._heap_size (h._heap_size / 2) data hlen
    (build_base_subtree h._children h._heap_size hd data)
  exact ⟨(hmain.1 0).maxHeapProp (by omega), hmain.2⟩

/-! ### The upward sift loops -/

theorem delete_sift_upF_exit (d size : Nat) (fuel : Nat) (heap : List Key) (idx : Nat)
    (h : ¬(1 ≤ idx ∧ idx < size ∧ heap.getD ((idx - 1) / d) 0 < heap.getD idx 0)) :
    delete_sift_upF d size fuel heap idx = (heap, idx) := by
  cases fuel with
  | zero => rfl
  | succ fuel =>
    simp only [delete_sift_upF]
    rw [if_neg h]

theorem delete_sift_upF_correct (d size : Nat) (hd : 1 ≤ d) :
    ∀ (fuel : Nat) (heap : List Key) (idx : Nat), idx ≤ fuel → idx < size →
      size ≤ heap.length → SiftInvA d size heap idx → SiftInvB d size heap idx →
      MaxHeapProp d size (delete_sift_upF d size fuel heap idx).1
      ∧ ((delete_sift_upF d size fuel heap idx).1).Perm heap
      ∧ (delete_sift_upF d size fuel heap idx).2 < size := by
  intro fuel
  induction fuel with
  | zero =>
    intro heap idx hfuel hidx hlen hA hB
    have hidx0 : idx = 0 := by omega
    subst hidx0
    simp only [delete_sift_upF]
    refine ⟨?_, List.Perm.refl _, hidx⟩
    intro p hp k hk hk1 hcs
    refine hA p k hp hk1 (by omega) hcs ?_
    have := child_gt hd hk1 p
    omega
  | succ fuel ih =>
    intro heap idx hfuel hidx hlen hA hB
    simp only [delete_sift_upF]
    by_cases hc : 1 ≤ idx ∧ idx < size ∧ heap.getD ((idx - 1) / d) 0 < heap.getD idx 0
    case neg =>
      rw [if_neg hc]
      refine ⟨?_, List.Perm.refl _, hidx⟩
      intro p hp k hk hk1 hcs
      by_cases hcq : d * p + k = idx
      · have hp' : p = (idx - 1) / d := child_parent_unique hd hk1 (by omega) hcq
        have hexit : ¬ heap.getD ((idx - 1) / d) 0 < heap.getD idx 0 := by
          intro hlt
          have h1 : 1 ≤ idx := by have := child_gt hd hk1 p; omega
          exact hc ⟨h1, hidx, hlt⟩
        rw [hcq, hp']
        exact not_lt.mp hexit
      · exact hA p k hp hk1 (by omega) hcs hcq
    case pos =>
      rw [if_pos hc]
      obtain ⟨h1, h2, hlt⟩ := hc
      have hplt : (idx - 1) / d < idx := parent_lt d h1
      have hvp : (_swap heap idx ((idx - 1) / d)).getD ((idx - 1) / d) 0 = heap.getD idx 0 :=
        getD_swap_right (by omega)
      have hvi : (_swap heap idx ((idx - 1) / d)).getD idx 0 = heap.getD ((idx - 1) / d) 0 :=
        getD_swap_left (by omega)
      have hvo : ∀ x, x ≠ idx → x ≠ (idx - 1) / d →
          (_swap heap idx ((idx - 1) / d)).getD x 0 = heap.getD x 0 :=
        fun x hx1 hx2 => getD_swap_other hx1 hx2
      have hA' : SiftInvA d size (_swap heap idx ((idx - 1) / d)) ((idx - 1) / d) := by
        intro q k' hq hk1' hkd' hcqs hcqne
        by_cases hqp : q = (idx - 1) / d
        · subst hqp
          by_cases hcq : d * ((idx - 1) / d) + k' = idx
          · rw [hcq, hvi, hvp]
            exact le_of_lt hlt
          · have hchild : (idx - 1) / d < d * ((idx - 1) / d) + k' := child_gt hd hk1' _
            have hne_p : d * ((idx - 1) / d) + k' ≠ (idx - 1) / d := by omega
            rw [hvo _ hcq hne_p, hvp]
            exact le_trans (hA _ k' hq hk1' hkd' hcqs hcq) (le_of_lt hlt)
        · by_cases hqi : q = idx
          · subst hqi
            have hcgt : q < d * q + k' := child_gt hd hk1' q
            have hcne_i : d * q + k' ≠ q := by omega
            have hcne_p : d * q + k' ≠ (q - 1) / d := by omega
            rw [hvo _ hcne_i hcne_p, hvi]
            exact hB h1 k' hk1' hkd' hcqs
          · have hcne_i : d * q + k' ≠ idx := by
              intro he
              exact hqp (child_parent_unique hd hk1' hkd' he)
            rw [hvo _ hcne_i hcqne, hvo q hqi hqp]
            exact hA q k' hq hk1' hkd' hcqs hcne_i
      have hB' : SiftInvB d size (_swap heap idx ((idx - 1) / d)) ((idx - 1) / d) := by
        intro hppos k' hk1' hkd' hcqs
        have hgplt : ((idx - 1) / d - 1) / d < (idx - 1) / d := parent_lt d hppos
        obtain ⟨kp, hkp1, hkpd, hpdec⟩ := child_decomp hd hppos
        have hgp_ne_i : ((idx - 1) / d - 1) / d ≠ idx := by omega
        have hgp_ne_p : ((idx - 1) / d - 1) / d ≠ (idx - 1) / d := by omega
        have hvp_le : heap.getD ((idx - 1) / d) 0 ≤ heap.getD (((idx - 1) / d - 1) / d) 0 := by
          have h0 := hA (((idx - 1) / d - 1) / d) kp (by omega) hkp1 hkpd
          rw [← hpdec] at h0
          exact h0 (by omega) (by omega)
        by_cases hcq : d * ((idx - 1) / d) + k' = idx
        · rw [hcq, hvi, hvo _ hgp_ne_i hgp_ne_p]
          exact hvp_le
        · have hcgt : (idx - 1) / d < d * ((idx - 1) / d) + k' := child_gt hd hk1' _
          have hcne_p : d * ((idx - 1) / d) + k' ≠ (idx - 1) / d := by omega
          rw [hvo _ hcq hcne_p, hvo _ hgp_ne_i hgp_ne_p]
          exact le_trans (hA _ k' (by omega) hk1' hkd' hcqs hcq) hvp_le
      have hlen' : size ≤ (_swap heap idx ((idx - 1) / d)).length := by
        rw [length_swap]
        exact hlen
      obtain ⟨hm, hp, hs⟩ := ih (_swap heap idx ((idx - 1) / d)) ((idx - 1) / d)
        (by omega) (by omega) hlen' hA' hB'
      exact ⟨hm, hp.trans (perm_swap (by omega) (by omega)), hs⟩

theorem sift_upF_eq_delete (d size : Nat) :
    ∀ (fuel : Nat) (heap : List Key) (idx : Nat) (key : Key), idx < size →
      heap.getD idx 0 = key → size ≤ heap.length →
      sift_upF d key fuel heap idx = (delete_sift_upF d size fuel heap idx).1 := by
  intro fuel
  induction fuel with
  | zero => intro heap idx key _ _ _; rfl
  | succ fuel ih =>
    intro heap idx key hidx hkey hlen
    simp only [sift_upF, delete_sift_upF]
    by_cases hc : 0 < idx ∧ heap.getD ((idx - 1) / d) 0 < key
    · rw [if_pos hc, if_pos (by rw [hkey]; exact ⟨hc.1, hidx, hc.2⟩)]
      have hplt : (idx - 1) / d < idx := parent_lt d hc.1
      refine ih _ _ key (by omega) ?_ (by rw [length_swap]; exact hlen)
      rw [getD_swap_right (by omega)]
      exact hkey
    · rw [if_neg hc, if_neg (by rw [hkey]; exact fun hc2 => hc ⟨hc2.1, hc2.2.2⟩)]
  -- note: (heap, idx).1 = heap definitionally

theorem sift_up_correct (d size : Nat) (hd : 1 ≤ d) (heap : List Key) (idx : Nat) (key : Key)
    (hidx : idx < size) (hkey : heap.getD idx 0 = key) (hlen : size ≤ heap.length)
    (hA : SiftInvA d size heap idx) (hB : SiftInvB d size heap idx) :
    MaxHeapProp d size (sift_up d key heap idx) ∧ (sift_up d key heap idx).Perm heap := by
  have heq : sift_up d key heap idx = (delete_sift_upF d size idx heap idx).1 :=
    sift_upF_eq_delete d size idx heap idx key hidx hkey hlen
  obtain ⟨hm, hp, -⟩ :=
    delete_sift_upF_correct d size hd idx heap idx (le_refl idx) hidx hlen hA hB
  rw [heq]
  exact ⟨hm, hp⟩

/-! ### Helpers for the mutating operations -/

theorem MaxHeapProp.mono {d size size' : Nat} {heap : List Key} (hs : size' ≤ size)
    (h : MaxHeapProp d size heap) : MaxHeapProp d size' heap :=
  fun i hi k hk hk1 hcs => h i (by omega) k hk hk1 (by omega)

theorem getD_mem {l : List Key} {j : Nat} (h : j < l.length) : l.getD j 0 ∈ l := by
  rw [List.getD_eq_getElem l 0 h]
  exact List.getElem_mem h

theorem maxHeapProp_root_max {d size : Nat} {heap : List Key} (hd : 1 ≤ d)
    (h : MaxHeapProp d size heap) : ∀ j, j < size → heap.getD j 0 ≤ heap.getD 0 0 :=
  fun j hj => (h.subtree 0).le_root j (inSubtree_zero hd j) hj

theorem getD_set_dropLast {l : List Key} {i j : Nat} (hi : i < l.length)
    (hj : j < l.length - 1) :
    ((l.set i (l.getD (l.length - 1) 0)).dropLast).getD j 0 =
      if i = j then l.getD (l.length - 1) 0 else l.getD j 0 := by
  rw [getD_dropLast (by simpa using hj)]
  rcases eq_or_ne i j with rfl | hne
  · rw [if_pos rfl]
    exact getD_set_self hi _
  · rw [if_neg hne]
    exact getD_set_ne hne _

theorem perm_set_dropLast_erase {l : List Key} {i : Nat} (hi : i < l.length) :
    ((l.set i (l.getD (l.length - 1) 0)).dropLast).Perm (l.erase (l.getD i 0)) := by
  have hlpos : 0 < l.length := by omega
  have hs_len : (l.set i (l.getD (l.length - 1) 0)).length = l.length := by simp
  have hsne : l.set i (l.getD (l.length - 1) 0) ≠ [] := by
    apply List.length_pos.mp
    omega
  have hslast : (l.set i (l.getD (l.length - 1) 0)).getD
      ((l.set i (l.getD (l.length - 1) 0)).length - 1) 0 = l.getD (l.length - 1) 0 := by
    rw [hs_len]
    rcases eq_or_ne i (l.length - 1) with he | hne
    · rw [← he]
      exact getD_set_self hi _
    · exact getD_set_ne hne _
  rw [List.perm_iff_count]
  intro x
  have hcount_drop := count_dropLast hsne x
  rw [hslast] at hcount_drop
  have hcount_set := List.count_set (l.getD (l.length - 1) 0) x l i hi
  simp only [beq_iff_eq] at hcount_set
  have hgi : l.getD i 0 = l[i] := List.getD_eq_getElem l 0 hi
  have hlix : l[i] = x ↔ x = l.getD i 0 := by
    rw [hgi]
    exact eq_comm
  by_cases hxv : x = l.getD i 0
  · have hmem : x ∈ l := by
      rw [hxv, hgi]
      exact List.getElem_mem hi
    have hpos : 1 ≤ l.count x := List.count_pos_iff.mpr hmem
    rw [if_pos (hlix.mpr hxv)] at hcount_set
    rw [← hxv, List.count_erase_self]
    by_cases hlastx : l.getD (l.length - 1) 0 = x
    · rw [if_pos hlastx] at hcount_set hcount_drop
      omega
    · rw [if_neg hlastx] at hcount_set hcount_drop
      omega
  · rw [if_neg (fun h => hxv (hlix.mp h))] at hcount_set
    rw [List.count_erase_of_ne hxv]
    by_cases hlastx : l.getD (l.length - 1) 0 = x
    · rw [if_pos hlastx] at hcount_set hcount_drop
      omega
    · rw [if_neg hlastx] at hcount_set hcount_drop
      omega

/-! ### Coherence of the index embeddings -/

/-- For indices i ≥ 1, Python's `parent` (floor division on ints) agrees with
the `Nat` division `(i - 1) / d` used in the loop embeddings. -/
theorem parent_eq_nat_parent (h : Heap) (hd : 1 ≤ h._children) (i : Nat) (hi : 1 ≤ i) :
    parent h (i : Int) = (((i - 1) / h._children : Nat) : Int) := by
  unfold parent
  have hdpos : (0 : Int) < (h._children : Int) := by exact_mod_cast hd
  rw [Int.fdiv_eq_ediv _ (le_of_lt hdpos)]
  have h1 : (i : Int) - 1 = ((i - 1 : Nat) : Int) := by
    push_cast [hi]
    omega
  rw [h1]
  exact (Int.ofNat_ediv (i - 1) h._children).symm

/-- Function `k_child` agrees with the `Nat` arithmetic `d * p + k` used in `_find_max`. -/
theorem k_child_eq_nat (h : Heap) (k p : Nat) :
    k_child h (k : Int) (p : Int) = ((h._children * p + k : Nat) : Int) := by
  unfold k_child
  push_cast
  ring

theorem getD_le_parent {d size : Nat} {heap : List Key} (hd : 1 ≤ d)
    (hinv : MaxHeapProp d size heap) {j : Nat} (hj1 : 1 ≤ j) (hjs : j < size) :
    heap.getD j 0 ≤ heap.getD ((j - 1) / d) 0 := by
  obtain ⟨kx, hkx1, hkxd, hdec⟩ := child_decomp hd hj1
  have h0 := hinv ((j - 1) / d) (by have := parent_lt d hj1; omega) kx (by omega) hkx1
    (by rw [← hdec]; exact hjs)
  rw [← hdec] at h0
  exact h0

/-! ### Claim theorems: C9, C10, C1, C2, C3 -/

/-- C9: for every heap with branching factor d ≥ 2, every parent index p ≥ 0
and every k in [1, d], `parent (k_child k p) = p`. -/
theorem parent_k_child (h : Heap) (hd : 2 ≤ h._children) (p k : Int)
    (_hp : 0 ≤ p) (hk1 : 1 ≤ k) (hkd : k ≤ (h._children : Int)) :
    parent h (k_child h k p) = p := by
  unfold parent k_child
  have hdpos : (0 : Int) < (h._children : Int) := by exact_mod_cast (by omega : 0 < h._children)
  rw [Int.fdiv_eq_ediv _ (le_of_lt hdpos)]
  have h1 : (h._children : Int) * p + k - 1 = (k - 1) + (h._children : Int) * p := by ring
  rw [h1, Int.add_mul_ediv_left _ _ (ne_of_gt hdpos),
    Int.ediv_eq_zero_of_lt (by omega) (by omega)]
  omega

theorem parent_k_child_witness :
    (2 ≤ ({ _heap := [], _heap_size := 0, _children := 3 } : Heap)._children
      ∧ (0 : Int) ≤ 2 ∧ (1 : Int) ≤ 2
      ∧ (2 : Int) ≤ (({ _heap := [], _heap_size := 0, _children := 3 } : Heap)._children : Int))
    ∧ parent { _heap := [], _heap_size := 0, _children := 3 }
        (k_child { _heap := [], _heap_size := 0, _children := 3 } 2 2) = 2 :=
  ⟨⟨by decide, by decide, by decide, by decide⟩,
    parent_k_child _ (by decide) 2 2 (by decide) (by decide) (by decide)⟩

/-- C10: for every branching factor d ≥ 2, `parent 0` returns -1
(floor division of -1 by d). -/
theorem parent_zero (h : Heap) (hd : 2 ≤ h._children) : parent h 0 = -1 := by
  unfold parent
  have hdpos : (0 : Int) < (h._children : Int) := by exact_mod_cast (by omega : 0 < h._children)
  have hc2 : (2 : Int) ≤ (h._children : Int) := by exact_mod_cast hd
  rw [Int.fdiv_eq_ediv _ (le_of_lt hdpos)]
  have h1 : (0 : Int) - 1 = ((h._children : Int) - 1) + (h._children : Int) * (-1) := by ring
  rw [h1, Int.add_mul_ediv_left _ _ (ne_of_gt hdpos),
    Int.ediv_eq_zero_of_lt (by omega) (by omega)]
  omega

theorem parent_zero_witness :
    2 ≤ ({ _heap := [], _heap_size := 0, _children := 2 } : Heap)._children
    ∧ parent { _heap := [], _heap_size := 0, _children := 2 } 0 = -1 :=
  ⟨by decide, parent_zero _ (by decide)⟩

/-- C1 counterexample: after `build([5])` on a heap constructed with
heap_size 0, the tracked logical size is still 0, not `len(data) = 1`:
`build_max_heap` never writes `_heap_size`. -/
theorem build_size_counterexample :
    (build_max_heap { _heap := [], _heap_size := 0, _children := 2 } [5])._heap_size ≠
      ([5] : List Key).length := by
  decide

/-- C1 (amended): `build_max_heap` leaves the tracked logical size unchanged,
so after the call it equals `len(data)` exactly when it already did before
(as arranged by `heap_sort`, which assigns the size before calling build). -/
theorem build_size_amended (h : Heap) (data : List Key) :
    (build_max_heap h data)._heap_size = h._heap_size
    ∧ ((build_max_heap h data)._heap_size = data.length ↔ h._heap_size = data.length) :=
  ⟨rfl, Iff.rfl⟩

/-- C2 counterexample: with d = 3 and size 5, the code's sweep
`range(5 // 2 - 1, -1, -1) = [1, 0]` differs from the spec's
`size // d - 1` sweep `[0]`; folding sift-down over the spec's sweep yields a
different sequence that, moreover, violates the max-heap invariant. -/
theorem build_indices_counterexample :
    build_indices 5 ≠ build_indices_spec 3 5
    ∧ (build_max_heap { _heap := [], _heap_size := 5, _children := 3 }
        [0, 1, 2, 3, 4])._heap ≠
        (build_indices_spec 3 5).foldl (fun heap i => max_heapify 3 5 heap i) [0, 1, 2, 3, 4]
    ∧ ¬ MaxHeapProp 3 5
        ((build_indices_spec 3 5).foldl (fun heap i => max_heapify 3 5 heap i)
          [0, 1, 2, 3, 4]) := by
  refine ⟨by decide, by decide, by decide⟩

/-- C2 (amended): `build_max_heap` applies sift-down to exactly the indices
`size // 2 - 1` down to 0 inclusive — the spec's sweep with d replaced by the
hard-coded 2 — independently of the branching factor: the swept index list is
strictly descending and contains exactly the indices below `size // 2`. -/
theorem build_indices_amended (h : Heap) (data : List Key) :
    (build_max_heap h data)._heap =
      (build_indices h._heap_size).foldl
        (fun heap i => max_heapify h._children h._heap_size heap i) data
    ∧ build_indices h._heap_size = build_indices_spec 2 h._heap_size
    ∧ (build_indices h._heap_size).Pairwise (fun a b => b < a)
    ∧ ∀ i, i ∈ build_indices h._heap_size ↔ i < h._heap_size / 2 := by
  refine ⟨rfl, rfl, ?_, ?_⟩
  · rw [build_indices, List.pairwise_reverse]
    exact List.pairwise_lt_range _
  · intro i
    rw [build_indices, List.mem_reverse, List.mem_range]

/-- C3: on a heap with branching factor d ≥ 2 whose tracked size equals
`len(data)`, `build_max_heap(data)` establishes the d-ary max-heap invariant
over the full sequence; it is total (never fails), the backing sequence ends
as a permutation of data of unchanged length, and empty input yields an
empty heap. -/
theorem build_max_heap_correct (h : Heap) (data : List Key) (hd : 2 ≤ h._children)
    (hsz : h._heap_size = data.length) :
    MaxHeapProp h._children (build_max_heap h data)._heap_size (build_max_heap h data)._heap
    ∧ ((build_max_heap h data)._heap).Perm data
    ∧ (build_max_heap h data)._heap_size = data.length
    ∧ (build_max_heap h data)._heap.length = data.length
    ∧ (data = [] → (build_max_heap h data)._heap = []) := by
  obtain ⟨hm, hp⟩ := build_max_heap_heap h data hd (le_of_eq hsz)
  refine ⟨hm, hp, hsz, hp.length_eq, ?_⟩
  intro hnil
  subst hnil
  exact hp.eq_nil

theorem build_max_heap_correct_witness :
    (2 ≤ ({ _heap := [], _heap_size := 6, _children := 2 } : Heap)._children
      ∧ ({ _heap := [], _heap_size := 6, _children := 2 } : Heap)._heap_size =
          ([4, 1, 7, 3, 9, 2] : List Key).length)
    ∧ MaxHeapProp 2 6
        (build_max_heap { _heap := [], _heap_size := 6, _children := 2 }
          [4, 1, 7, 3, 9, 2])._heap :=
  ⟨⟨by decide, by decide⟩,
    (build_max_heap_correct { _heap := [], _heap_size := 6, _children := 2 }
      [4, 1, 7, 3, 9, 2] (by decide) (by decide)).1⟩

/-! ### Claim theorems: C5 (increase_key) and C7 (max_heap_insert) -/

theorem set_sift_invA {d size : Nat} {heap : List Key} {index : Nat} {key : Key}
    (hinv : MaxHeapProp d size heap) (hlen : size ≤ heap.length) (hidx : index < size)
    (hgt : heap.getD index 0 < key) :
    SiftInvA d size (heap.set index key) index := by
  intro q k' hq hk1 hkd hcs hcne
  by_cases hqi : q = index
  · subst hqi
    rw [getD_set_ne (fun he => hcne he.symm), getD_set_self (by omega) key]
    exact le_trans (hinv q hq k' (by omega) hk1 hcs) (le_of_lt hgt)
  · rw [getD_set_ne (fun he => hcne he.symm), getD_set_ne (fun he => hqi he.symm)]
    exact hinv q hq k' (by omega) hk1 hcs

theorem set_sift_invB {d size : Nat} {heap : List Key} {index : Nat} {key : Key}
    (hd : 1 ≤ d) (hinv : MaxHeapProp d size heap) (hidx : index < size) :
    SiftInvB d size (heap.set index key) index := by
  intro hpos k' hk1 hkd hcs
  have hplt : (index - 1) / d < index := parent_lt d hpos
  have hcgt : index < d * index + k' := child_gt hd hk1 index
  rw [getD_set_ne (by omega), getD_set_ne (by omega)]
  exact le_trans (hinv index hidx k' (by omega) hk1 hcs)
    (getD_le_parent hd hinv hpos hidx)

/-- C5: `increase_key(index, key)` fails with the key error exactly when the
new key is not strictly greater than the stored key (for a valid index), and
a failed call leaves the state unchanged; a successful call on a heap
satisfying the invariant (with size = sequence length) replaces the key at
`index` and restores the invariant, with size and length unchanged. -/
theorem increase_key_correct (h : Heap) (index : Nat) (key : Key)
    (hd : 2 ≤ h._children) (hidx : index < h._heap_size) :
    ((increase_key h index key).1 = .error .IllegalKey ↔ key ≤ h._heap.getD index 0)
    ∧ (key ≤ h._heap.getD index 0 → (increase_key h index key).2 = h)
    ∧ (MaxHeapProp h._children h._heap_size h._heap → h._heap_size = h._heap.length →
        h._heap.getD index 0 < key →
        (increase_key h index key).1 = .ok ()
        ∧ MaxHeapProp h._children h._heap_size (increase_key h index key).2._heap
        ∧ ((increase_key h index key).2._heap).Perm (h._heap.set index key)
        ∧ (increase_key h index key).2._heap_size = h._heap_size
        ∧ (increase_key h index key).2._heap.length = h._heap.length) := by
  by_cases hc : key ≤ h._heap.getD index 0
  · unfold increase_key
    rw [if_pos hc]
    exact ⟨⟨fun _ => hc, fun _ => rfl⟩, fun _ => rfl,
      fun _ _ hgt => absurd hgt (not_lt.mpr hc)⟩
  · unfold increase_key
    rw [if_neg hc]
    refine ⟨⟨fun he => Except.noConfusion he, fun hle => absurd hle hc⟩,
      fun hle => absurd hle hc, ?_⟩
    intro hinv hsz hgt
    have hlen : h._heap_size ≤ (h._heap.set index key).length := by
      rw [List.length_set]
      omega
    have hkey : (h._heap.set index key).getD index 0 = key := getD_set_self (by omega) key
    obtain ⟨hm, hp⟩ := sift_up_correct h._children h._heap_size (by omega)
      (h._heap.set index key) index key hidx hkey hlen
      (set_sift_invA hinv (by omega) hidx hgt)
      (set_sift_invB (by omega) hinv hidx)
    refine ⟨rfl, hm, hp, rfl, ?_⟩
    exact hp.length_eq.trans (List.length_set h._heap index key)

theorem increase_key_correct_witness :
    (2 ≤ ({ _heap := [9, 4, 7, 3, 1, 2], _heap_size := 6, _children := 2 } : Heap)._children
      ∧ 5 < ({ _heap := [9, 4, 7, 3, 1, 2], _heap_size := 6, _children := 2 } : Heap)._heap_size)
    ∧ ((increase_key { _heap := [9, 4, 7, 3, 1, 2], _heap_size := 6, _children := 2 } 5 100).1 =
          .error .IllegalKey ↔
        (100 : Key) ≤ ({ _heap := [9, 4, 7, 3, 1, 2], _heap_size := 6, _children := 2 } :
          Heap)._heap.getD 5 0) :=
  ⟨⟨by decide, by decide⟩,
    (increase_key_correct { _heap := [9, 4, 7, 3, 1, 2], _heap_size := 6, _children := 2 }
      5 100 (by decide) (by decide)).1⟩

/-- C7: `max_heap_insert(key)` never fails; it appends key at the end of the
backing sequence, increments the logical size by one (the stored multiset is
the previous multiset plus key), sifts up from the new last position, and
restores the invariant, with size again equal to the sequence length. -/
theorem max_heap_insert_correct (h : Heap) (key : Key) (hd : 2 ≤ h._children)
    (hinv : MaxHeapProp h._children h._heap_size h._heap)
    (hsz : h._heap_size = h._heap.length) :
    (max_heap_insert h key)._heap_size = h._heap_size + 1
    ∧ MaxHeapProp h._children (max_heap_insert h key)._heap_size (max_heap_insert h key)._heap
    ∧ ((max_heap_insert h key)._heap).Perm (h._heap ++ [key])
    ∧ ((max_heap_insert h key)._heap : Multiset Key) = (h._heap : Multiset Key) + {key}
    ∧ (max_heap_insert h key)._heap_size = (max_heap_insert h key)._heap.length := by
  have hidx : h._heap_size < h._heap_size + 1 := by omega
  have hkey : (h._heap ++ [key]).getD h._heap_size 0 = key := by
    rw [hsz]
    exact getD_append_last h._heap key
  have hlen : h._heap_size + 1 ≤ (h._heap ++ [key]).length := by
    rw [List.length_append]
    simp
    omega
  have hA : SiftInvA h._children (h._heap_size + 1) (h._heap ++ [key]) h._heap_size := by
    intro q k' hq hk1 hkd hcs hcne
    have hcgt : q < h._children * q + k' := child_gt (by omega) hk1 q
    rcases lt_or_ge q h._heap_size with hqs | hqs
    · have hcss : h._children * q + k' < h._heap_size := by omega
      rw [getD_append_left (by omega) key, getD_append_left (by omega) key]
      exact hinv q hqs k' (by omega) hk1 hcss
    · exact absurd hcs (by omega)
  have hB : SiftInvB h._children (h._heap_size + 1) (h._heap ++ [key]) h._heap_size := by
    intro hpos k' hk1 hkd hcs
    have hcgt : h._heap_size < h._children * h._heap_size + k' := child_gt (by omega) hk1 _
    exact absurd hcs (by omega)
  obtain ⟨hm, hp⟩ := sift_up_correct h._children (h._heap_size + 1) (by omega)
    (h._heap ++ [key]) h._heap_size key hidx hkey hlen hA hB
  unfold max_heap_insert
  refine ⟨rfl, hm, hp, ?_, ?_⟩
  · show (↑(sift_up h._children key (h._heap ++ [key]) h._heap_size) : Multiset Key) =
      (↑h._heap : Multiset Key) + {key}
    rw [Multiset.coe_eq_coe.mpr hp, ← Multiset.coe_singleton key, ← Multiset.coe_add]
  · show h._heap_size + 1 =
      (sift_up h._children key (h._heap ++ [key]) (h._heap_size + 1 - 1)).length
    have hlq : sift_up h._children key (h._heap ++ [key]) (h._heap_size + 1 - 1) =
        sift_up h._children key (h._heap ++ [key]) h._heap_size := rfl
    rw [hlq, hp.length_eq, List.length_append, List.length_singleton]
    omega

theorem max_heap_insert_correct_witness :
    (2 ≤ ({ _heap := [9, 4, 7], _heap_size := 3, _children := 2 } : Heap)._children
      ∧ MaxHeapProp 2 3 ([9, 4, 7] : List Key)
      ∧ ({ _heap := [9, 4, 7], _heap_size := 3, _children := 2 } : Heap)._heap_size =
          ({ _heap := [9, 4, 7], _heap_size := 3, _children := 2 } : Heap)._heap.length)
    ∧ (max_heap_insert { _heap := [9, 4, 7], _heap_size := 3, _children := 2 } 8)._heap_size =
        ({ _heap := [9, 4, 7], _heap_size := 3, _children := 2 } : Heap)._heap_size + 1 :=
  ⟨⟨by decide, by decide, by decide⟩,
    (max_heap_insert_correct { _heap := [9, 4, 7], _heap_size := 3, _children := 2 } 8
      (by decide) (by decide) (by decide)).1⟩

/-! ### Claim theorem: C4 (extract_max) -/

/-- C4: `extract_max` fails with `HeapUnderflow` exactly when the size is 0,
leaving the state unchanged in that case; on a heap satisfying the invariant
with size ≥ 1 (and size = sequence length) it returns the maximum stored key,
decreases the size by one, removes exactly one occurrence of that key from
the stored multiset, and restores the invariant. -/
theorem extract_max_correct (h : Heap) (hd : 2 ≤ h._children) :
    ((extract_max h).1 = .error .HeapUnderflow ↔ h._heap_size = 0)
    ∧ (h._heap_size = 0 → (extract_max h).2 = h)
    ∧ (MaxHeapProp h._children h._heap_size h._heap → h._heap_size = h._heap.length →
        1 ≤ h._heap_size →
        (extract_max h).1 = .ok (h._heap.getD 0 0)
        ∧ h._heap.getD 0 0 ∈ h._heap
        ∧ (∀ x ∈ h._heap, x ≤ h._heap.getD 0 0)
        ∧ (extract_max h).2._heap_size = h._heap_size - 1
        ∧ ((extract_max h).2._heap : Multiset Key) =
            (h._heap : Multiset Key).erase (h._heap.getD 0 0)
        ∧ MaxHeapProp h._children (extract_max h).2._heap_size (extract_max h).2._heap
        ∧ (extract_max h).2._heap_size = (extract_max h).2._heap.length) := by
  by_cases hzero : h._heap_size < 1
  · have hres : extract_max h = (.error .HeapUnderflow, h) := by
      unfold extract_max
      rw [if_pos hzero]
    rw [hres]
    exact ⟨⟨fun _ => by omega, fun _ => rfl⟩, fun _ => rfl,
      fun _ _ hpos => absurd hpos (by omega)⟩
  · have hres : extract_max h =
        (.ok (h._heap.getD 0 0),
          { h with
            _heap := max_heapify h._children (h._heap_size - 1)
              ((h._heap.set 0 (h._heap.getD (h._heap_size - 1) 0)).dropLast) 0,
            _heap_size := h._heap_size - 1 }) := by
      unfold extract_max
      rw [if_neg hzero]
    rw [hres]
    refine ⟨⟨fun he => Except.noConfusion he, fun h0 => absurd h0 (by omega)⟩,
      fun h0 => absurd h0 (by omega), ?_⟩
    intro hinv hsz hpos
    have hlpos : 0 < h._heap.length := by omega
    have hEidx : h._heap.getD (h._heap_size - 1) 0 = h._heap.getD (h._heap.length - 1) 0 := by
      rw [hsz]
    rw [hEidx]
    set A := (h._heap.set 0 (h._heap.getD (h._heap.length - 1) 0)).dropLast with hAdef
    have hlen1 : A.length = h._heap.length - 1 := by
      rw [hAdef]
      simp
    have hv1 : ∀ j, j < h._heap_size - 1 →
        A.getD j 0 = if 0 = j then h._heap.getD (h._heap.length - 1) 0
          else h._heap.getD j 0 :=
      fun j hj => getD_set_dropLast hlpos (by omega)
    have hch : ∀ k, 1 ≤ k → k ≤ h._children → h._children * 0 + k < h._heap_size - 1 →
        SubtreeHeap h._children (h._heap_size - 1) A (h._children * 0 + k) := by
      intro k hk1 hkd hks
      refine subtreeHeap_transfer ?_ ((hinv.mono (by omega)).subtree _)
      intro x hx hxs
      have hxge : h._children * 0 + k ≤ x := hx.le
      rw [hv1 x hxs, if_neg (by omega)]
    have hsub := max_heapify_subtree h._children (h._heap_size - 1) A 0
      (by rw [hlen1]; omega) hch
    have hm : MaxHeapProp h._children (h._heap_size - 1)
        (max_heapify h._children (h._heap_size - 1) A 0) :=
      hsub.maxHeapProp (by omega)
    have hperm1 : (max_heapify h._children (h._heap_size - 1) A 0).Perm A :=
      max_heapify_perm _ _ _ _ (by rw [hlen1]; omega)
    have hperm2 : A.Perm (h._heap.erase (h._heap.getD 0 0)) := perm_set_dropLast_erase hlpos
    refine ⟨rfl, getD_mem hlpos, ?_, rfl, ?_, hm, ?_⟩
    · intro x hx
      obtain ⟨j, hjl, he⟩ := List.getElem_of_mem hx
      have hle := maxHeapProp_root_max (by omega : 1 ≤ h._children) hinv j (by omega)
      rw [List.getD_eq_getElem h._heap 0 hjl, he] at hle
      exact hle
    · show (↑(max_heapify h._children (h._heap_size - 1) A 0) : Multiset Key) =
        (↑h._heap : Multiset Key).erase (h._heap.getD 0 0)
      rw [Multiset.coe_eq_coe.mpr (hperm1.trans hperm2), Multiset.coe_erase]
    · show h._heap_size - 1 = (max_heapify h._children (h._heap_size - 1) A 0).length
      rw [max_heapify_length, hlen1]
      omega

theorem extract_max_correct_witness :
    2 ≤ ({ _heap := [9, 4, 7, 3, 1, 2], _heap_size := 6, _children := 2 } : Heap)._children
    ∧ ((extract_max { _heap := [9, 4, 7, 3, 1, 2], _heap_size := 6, _children := 2 }).1 =
          .error .HeapUnderflow ↔
        ({ _heap := [9, 4, 7, 3, 1, 2], _heap_size := 6, _children := 2 } : Heap)._heap_size = 0) :=
  ⟨by decide,
    (extract_max_correct { _heap := [9, 4, 7, 3, 1, 2], _heap_size := 6, _children := 2 }
      (by decide)).1⟩

/-! ### Claim theorem: C6 (delete_key) -/

/-- C6: `delete_key(position)` fails with `IndexOutOfRange` exactly when the
position lies outside [0, size), leaving the state unchanged in that case; on
a heap satisfying the invariant (with size = sequence length) and a valid
position — including the special case of the last position — it decreases the
size by one, the stored multiset loses exactly one occurrence of the key that
was at the position, and the invariant is restored. -/
theorem delete_key_correct (h : Heap) (pos : Int) (hd : 2 ≤ h._children) :
    ((delete_key h pos).1 = .error .IndexOutOfRange ↔ (pos < 0 ∨ (h._heap_size : Int) ≤ pos))
    ∧ ((pos < 0 ∨ (h._heap_size : Int) ≤ pos) → (delete_key h pos).2 = h)
    ∧ (MaxHeapProp h._children h._heap_size h._heap → h._heap_size = h._heap.length →
        0 ≤ pos → pos < (h._heap_size : Int) →
        (delete_key h pos).1 = .ok ()
        ∧ (delete_key h pos).2._heap_size = h._heap_size - 1
        ∧ ((delete_key h pos).2._heap : Multiset Key) =
            (h._heap : Multiset Key).erase (h._heap.getD pos.toNat 0)
        ∧ MaxHeapProp h._children (delete_key h pos).2._heap_size (delete_key h pos).2._heap
        ∧ (delete_key h pos).2._heap_size = (delete_key h pos).2._heap.length) := by
  by_cases hc : (h._heap_size : Int) ≤ pos ∨ pos < 0
  · have hres : delete_key h pos = (.error .IndexOutOfRange, h) := by
      unfold delete_key
      rw [if_pos hc]
    rw [hres]
    exact ⟨⟨fun _ => hc.symm, fun _ => rfl⟩, fun _ => rfl,
      fun _ _ hge hlt => (show False by rcases hc with h' | h' <;> omega).elim⟩
  · have hc' := hc
    push_neg at hc'
    obtain ⟨hb1, hb2⟩ := hc'
    set P := pos.toNat with hPdef
    have hPcast : (P : Int) = pos := Int.toNat_of_nonneg hb2
    have hP : P < h._heap_size := by omega
    have hres : delete_key h pos =
        (.ok (), { h with
          _heap := max_heapify h._children (h._heap_size - 1)
            (delete_sift_up h._children (h._heap_size - 1)
              ((h._heap.set P (h._heap.getD (h._heap_size - 1) 0)).dropLast) P).1
            (delete_sift_up h._children (h._heap_size - 1)
              ((h._heap.set P (h._heap.getD (h._heap_size - 1) 0)).dropLast) P).2,
          _heap_size := h._heap_size - 1 }) := by
      unfold delete_key
      rw [if_neg hc]
    rw [hres]
    refine ⟨⟨fun he => Except.noConfusion he,
      fun hor => (show False by rcases hor with h' | h' <;> omega).elim⟩,
      fun hor => (show False by rcases hor with h' | h' <;> omega).elim, ?_⟩
    intro hinv hsz hge hlt
    have hlpos' : P < h._heap.length := by omega
    have hEidx : h._heap.getD (h._heap_size - 1) 0 = h._heap.getD (h._heap.length - 1) 0 := by
      rw [hsz]
    rw [hEidx]
    set A := (h._heap.set P (h._heap.getD (h._heap.length - 1) 0)).dropLast with hAdef
    have hlenA : A.length = h._heap.length - 1 := by
      rw [hAdef]
      simp
    have hvA : ∀ j, j < h._heap_size - 1 →
        A.getD j 0 = if P = j then h._heap.getD (h._heap.length - 1) 0
          else h._heap.getD j 0 :=
      fun j hj => getD_set_dropLast hlpos' (by omega)
    have hpermA : A.Perm (h._heap.erase (h._heap.getD P 0)) := perm_set_dropLast_erase hlpos'
    by_cases hlast : P = h._heap_size - 1
    · -- deleting the last position: the loop and the sift-down are no-ops
      have hexit : delete_sift_up h._children (h._heap_size - 1) A P = (A, P) :=
        delete_sift_upF_exit _ _ _ _ _ (by rintro ⟨-, h2', -⟩; omega)
      have hloop1 : (delete_sift_up h._children (h._heap_size - 1) A P).1 = A := by
        rw [hexit]
      have hloop2 : (delete_sift_up h._children (h._heap_size - 1) A P).2 = P := by
        rw [hexit]
      rw [hloop1, hloop2]
      have hnoop : max_heapify h._children (h._heap_size - 1) A P = A :=
        max_heapify_no_op _ _ _ _ (fun k hk1 hkd hcs =>
          absurd hcs (by have := child_gt (show 1 ≤ h._children by omega) hk1 P; omega))
      rw [hnoop]
      refine ⟨rfl, rfl, ?_, ?_, ?_⟩
      · show (↑A : Multiset Key) = (↑h._heap : Multiset Key).erase (h._heap.getD P 0)
        rw [Multiset.coe_eq_coe.mpr hpermA, Multiset.coe_erase]
      · show MaxHeapProp h._children (h._heap_size - 1) A
        refine maxHeapProp_transfer ?_ (hinv.mono (by omega))
        intro j hj
        rw [hvA j hj, if_neg (by omega)]
      · show h._heap_size - 1 = A.length
        rw [hlenA]
        omega
    · -- deleting a middle position
      have hPmid : P < h._heap_size - 1 := by omega
      have hvP : A.getD P 0 = h._heap.getD (h._heap.length - 1) 0 := by
        rw [hvA P hPmid, if_pos rfl]
      by_cases hup : 1 ≤ P ∧
          h._heap.getD ((P - 1) / h._children) 0 < h._heap.getD (h._heap.length - 1) 0
      · -- the moved-in key must travel upward; afterwards the sift-down is a no-op
        obtain ⟨hP1, hpv⟩ := hup
        have hparlt : (P - 1) / h._children < P := parent_lt _ hP1
        have hA_invA : SiftInvA h._children (h._heap_size - 1) A P := by
          intro q k' hq hk1 hkd hcs hcne
          rw [hvA _ hcs, if_neg (fun he => hcne he.symm)]
          by_cases hqP : q = P
          · subst hqP
            rw [hvP]
            have hc1 : h._heap.getD (h._children * P + k') 0 ≤ h._heap.getD P 0 :=
              hinv P (by omega) k' (by omega) hk1 (by omega)
            have hc2 : h._heap.getD P 0 ≤ h._heap.getD ((P - 1) / h._children) 0 :=
              getD_le_parent (by omega) hinv hP1 (by omega)
            exact le_trans hc1 (le_trans hc2 (le_of_lt hpv))
          · rw [hvA _ hq, if_neg (fun he => hqP he.symm)]
            exact hinv q (by omega) k' (by omega) hk1 (by omega)
        have hA_invB : SiftInvB h._children (h._heap_size - 1) A P := by
          intro hpos' k' hk1 hkd hcs
          have hcgt : P < h._children * P + k' := child_gt (by omega) hk1 P
          rw [hvA _ hcs, if_neg (by omega), hvA _ (by omega), if_neg (by omega)]
          have hc1 : h._heap.getD (h._children * P + k') 0 ≤ h._heap.getD P 0 :=
            hinv P (by omega) k' (by omega) hk1 (by omega)
          have hc2 : h._heap.getD P 0 ≤ h._heap.getD ((P - 1) / h._children) 0 :=
            getD_le_parent (by omega) hinv hP1 (by omega)
          exact le_trans hc1 hc2
        obtain ⟨hm, hperm, hfin⟩ := delete_sift_upF_correct h._children (h._heap_size - 1)
          (by omega) P A P (le_refl P) hPmid (by rw [hlenA]; omega) hA_invA hA_invB
        have hm' : MaxHeapProp h._children (h._heap_size - 1)
            (delete_sift_up h._children (h._heap_size - 1) A P).1 := hm
        have hperm' : ((delete_sift_up h._children (h._heap_size - 1) A P).1).Perm A := hperm
        have hfin' : (delete_sift_up h._children (h._heap_size - 1) A P).2 <
            h._heap_size - 1 := hfin
        have hnoop : max_heapify h._children (h._heap_size - 1)
            (delete_sift_up h._children (h._heap_size - 1) A P).1
            (delete_sift_up h._children (h._heap_size - 1) A P).2 =
            (delete_sift_up h._children (h._heap_size - 1) A P).1 :=
          max_heapify_no_op _ _ _ _ (fun k hk1 hkd hcs =>
            hm' _ hfin' k (by omega) hk1 hcs)
        rw [hnoop]
        refine ⟨rfl, rfl, ?_, hm', ?_⟩
        · rw [Multiset.coe_eq_coe.mpr (hperm'.trans hpermA), Multiset.coe_erase]
        · show h._heap_size - 1 = (delete_sift_up h._children (h._heap_size - 1) A P).1.length
          rw [hperm'.length_eq, hlenA]
          omega
      · -- the moved-in key does not travel upward; the sift-down restores the heap
        have hexit : delete_sift_up h._children (h._heap_size - 1) A P = (A, P) := by
          refine delete_sift_upF_exit _ _ _ _ _ ?_
          rintro ⟨hp1, hp2, hp3⟩
          apply hup
          refine ⟨hp1, ?_⟩
          have hparlt : (P - 1) / h._children < P := parent_lt _ hp1
          rw [hvA _ (by omega), if_neg (by omega), hvP] at hp3
          exact hp3
        have hloop1 : (delete_sift_up h._children (h._heap_size - 1) A P).1 = A := by
          rw [hexit]
        have hloop2 : (delete_sift_up h._children (h._heap_size - 1) A P).2 = P := by
          rw [hexit]
        rw [hloop1, hloop2]
        have hch : ∀ k, 1 ≤ k → k ≤ h._children → h._children * P + k < h._heap_size - 1 →
            SubtreeHeap h._children (h._heap_size - 1) A (h._children * P + k) := by
          intro k hk1 hkd hks
          refine subtreeHeap_transfer ?_ ((hinv.mono (by omega)).subtree _)
          intro x hx hxs
          have hxge := hx.le
          have hcgt := child_gt (show 1 ≤ h._children by omega) hk1 P
          rw [hvA x hxs, if_neg (by omega)]
        have hsub := max_heapify_subtree h._children (h._heap_size - 1) A P
          (by rw [hlenA]; omega) hch
        have hmFull : MaxHeapProp h._children (h._heap_size - 1)
            (max_heapify h._children (h._heap_size - 1) A P) := by
          intro a ha k hk hk1 hcs
          by_cases hain : InSubtree h._children P a
          · exact hsub a k hain ha hk1 (by omega) hcs
          · have hanP : a ≠ P := fun he => hain (by rw [he]; exact .refl P)
            have hra : (max_heapify h._children (h._heap_size - 1) A P).getD a 0 =
                A.getD a 0 := max_heapify_frame _ _ _ _ _ hain
            by_cases hcaP : h._children * a + k = P
            · have hP1 : 1 ≤ P := by
                have := child_gt (show 1 ≤ h._children by omega) hk1 a
                omega
              have haP : a = (P - 1) / h._children :=
                child_parent_unique (by omega) hk1 (by omega) hcaP
              have hlastle : h._heap.getD (h._heap.length - 1) 0 ≤
                  h._heap.getD ((P - 1) / h._children) 0 := by
                by_contra hcon
                exact hup ⟨hP1, lt_of_not_le hcon⟩
              have hbnd : ∀ x, InSubtree h._children P x → x < h._heap_size - 1 →
                  A.getD x 0 ≤ h._heap.getD ((P - 1) / h._children) 0 := by
                intro x hx hxs
                rcases eq_or_ne x P with rfl | hxP
                · rw [hvP]
                  exact hlastle
                · rw [hvA x hxs, if_neg (fun he => hxP he.symm)]
                  have h1' := ((hinv.mono
                    (show h._heap_size - 1 ≤ h._heap_size by omega)).subtree P).le_root x hx hxs
                  have h2' := getD_le_parent (show 1 ≤ h._children by omega) hinv hP1
                    (show P < h._heap_size by omega)
                  exact le_trans h1' h2'
              have hble := max_heapify_bound h._children (h._heap_size - 1) A P _
                (by rw [hlenA]; omega) hbnd P (.refl P) hPmid
              rw [hcaP, hra]
              have hva' : A.getD a 0 = h._heap.getD a 0 := by
                rw [hvA a ha, if_neg (fun he => hanP he.symm)]
              rw [hva', haP]
              exact hble
            · have hcain : ¬ InSubtree h._children P (h._children * a + k) := by
                intro hcon
                obtain ⟨-, hpar⟩ := hcon.inv (fun he => hcaP he.symm)
                rw [← child_parent_unique (show 1 ≤ h._children by omega) hk1 (by omega) rfl]
                  at hpar
                exact hain hpar
              have hrc : (max_heapify h._children (h._heap_size - 1) A P).getD
                  (h._children * a + k) 0 = A.getD (h._children * a + k) 0 :=
                max_heapify_frame _ _ _ _ _ hcain
              rw [hra, hrc, hvA a ha, if_neg (fun he => hanP he.symm), hvA _ hcs,
                if_neg (fun he => hcaP he.symm)]
              exact hinv a (by omega) k hk hk1 (by omega)
        refine ⟨rfl, rfl, ?_, hmFull, ?_⟩
        · rw [Multiset.coe_eq_coe.mpr
            ((max_heapify_perm _ _ _ _ (by rw [hlenA]; omega)).trans hpermA),
            Multiset.coe_erase]
        · show h._heap_size - 1 =
            (max_heapify h._children (h._heap_size - 1) A P).length
          rw [max_heapify_length, hlenA]
          omega

theorem delete_key_correct_witness :
    2 ≤ ({ _heap := [9, 4, 7, 3, 1, 2], _heap_size := 6, _children := 2 } : Heap)._children
    ∧ ((delete_key { _heap := [9, 4, 7, 3, 1, 2], _heap_size := 6, _children := 2 } 7).1 =
          .error .IndexOutOfRange ↔
        ((7 : Int) < 0 ∨
          (({ _heap := [9, 4, 7, 3, 1, 2], _heap_size := 6, _children := 2 } :
            Heap)._heap_size : Int) ≤ 7)) :=
  ⟨by decide,
    (delete_key_correct { _heap := [9, 4, 7, 3, 1, 2], _heap_size := 6, _children := 2 } 7
      (by decide)).1⟩

/-! ### Claim theorem: C8 (heap_sort) -/

theorem heap_sort_loop_correct (d : Nat) (hd : 1 ≤ d) (n : Nat) :
    ∀ (i : Nat) (array : List Key), array.length = n → i ≤ n - 1 →
      MaxHeapProp d (i + 1) array →
      (∀ j k', i < j → j ≤ k' → k' < n → array.getD j 0 ≤ array.getD k' 0) →
      (∀ j m, j ≤ i → i < m → m < n → array.getD j 0 ≤ array.getD m 0) →
      (heap_sort_loop d array i).Perm array
      ∧ (heap_sort_loop d array i).length = n
      ∧ (∀ j k', j ≤ k' → k' < n →
          (heap_sort_loop d array i).getD j 0 ≤ (heap_sort_loop d array i).getD k' 0) := by
  intro i
  induction i with
  | zero =>
    intro array hlen hle hheap hI2 hI3
    simp only [heap_sort_loop]
    refine ⟨List.Perm.refl _, hlen, ?_⟩
    intro j k' hjk hk'
    rcases Nat.eq_zero_or_pos j with rfl | hj
    · rcases Nat.eq_zero_or_pos k' with rfl | hk0
      · exact le_refl _
      · exact hI3 0 k' (le_refl 0) hk0 hk'
    · exact hI2 j k' hj hjk hk'
  | succ i ih =>
    intro array hlen hle hheap hI2 hI3
    simp only [heap_sort_loop]
    have hn2 : i + 2 ≤ n := by omega
    have hmax : ∀ j, j < i + 2 → array.getD j 0 ≤ array.getD 0 0 :=
      maxHeapProp_root_max hd hheap
    have hch : ∀ k, 1 ≤ k → k ≤ d → d * 0 + k < i + 1 →
        SubtreeHeap d (i + 1) (_swap array 0 (i + 1)) (d * 0 + k) := by
      intro k hk1 hkd hks
      refine subtreeHeap_transfer ?_ ((hheap.mono (by omega)).subtree _)
      intro x hx hxs
      have hxge : d * 0 + k ≤ x := hx.le
      exact getD_swap_other (by omega) (by omega)
    have hsub := max_heapify_subtree d (i + 1) (_swap array 0 (i + 1)) 0
      (by rw [length_swap]; omega) hch
    have hm' : MaxHeapProp d (i + 1) (max_heapify d (i + 1) (_swap array 0 (i + 1)) 0) :=
      hsub.maxHeapProp hd
    have hvm : ∀ m, i + 1 ≤ m → m < n →
        (max_heapify d (i + 1) (_swap array 0 (i + 1)) 0).getD m 0 =
          if m = i + 1 then array.getD 0 0 else array.getD m 0 := by
      intro m h1 h2
      rw [max_heapify_frame_ge d (i + 1) _ 0 m h1]
      rcases eq_or_ne m (i + 1) with rfl | hne
      · rw [if_pos rfl]
        exact getD_swap_right (by omega)
      · rw [if_neg hne]
        exact getD_swap_other (by omega) hne
    have hI2' : ∀ j k', i < j → j ≤ k' → k' < n →
        (max_heapify d (i + 1) (_swap array 0 (i + 1)) 0).getD j 0 ≤
          (max_heapify d (i + 1) (_swap array 0 (i + 1)) 0).getD k' 0 := by
      intro j k' hij hjk hk'
      rw [hvm j (by omega) (by omega), hvm k' (by omega) hk']
      rcases eq_or_ne j (i + 1) with rfl | hjne
      · rw [if_pos rfl]
        rcases eq_or_ne k' (i + 1) with rfl | hkne
        · rw [if_pos rfl]
        · rw [if_neg hkne]
          exact hI3 0 k' (by omega) (by omega) hk'
      · rw [if_neg hjne]
        have hkne : k' ≠ i + 1 := by omega
        rw [if_neg hkne]
        exact hI2 j k' (by omega) hjk hk'
    have hI3' : ∀ j m, j ≤ i → i < m → m < n →
        (max_heapify d (i + 1) (_swap array 0 (i + 1)) 0).getD j 0 ≤
          (max_heapify d (i + 1) (_swap array 0 (i + 1)) 0).getD m 0 := by
      intro j m hj him hm
      have hmv := hvm m (by omega) hm
      have hpre : ∀ x, InSubtree d 0 x → x < i + 1 →
          (_swap array 0 (i + 1)).getD x 0 ≤
            (max_heapify d (i + 1) (_swap array 0 (i + 1)) 0).getD m 0 := by
        intro x hx hxs
        have hxval : (_swap array 0 (i + 1)).getD x 0 =
            if x = 0 then array.getD (i + 1) 0 else array.getD x 0 := by
          rcases eq_or_ne x 0 with rfl | hxne
          · rw [if_pos rfl]
            exact getD_swap_left (by omega)
          · rw [if_neg hxne]
            exact getD_swap_other hxne (by omega)
        rw [hxval, hmv]
        rcases eq_or_ne m (i + 1) with hem | hnem
        · rw [if_pos hem]
          rcases eq_or_ne x 0 with rfl | hxne
          · rw [if_pos rfl]
            exact hmax (i + 1) (by omega)
          · rw [if_neg hxne]
            exact hmax x (by omega)
        · rw [if_neg hnem]
          rcases eq_or_ne x 0 with rfl | hxne
          · rw [if_pos rfl]
            exact hI3 (i + 1) m (le_refl _) (by omega) hm
          · rw [if_neg hxne]
            exact hI3 x m (by omega) (by omega) hm
      exact max_heapify_bound d (i + 1) (_swap array 0 (i + 1)) 0 _
        (by rw [length_swap]; omega) hpre j (inSubtree_zero hd j) (by omega)
    obtain ⟨hperm, hlen', hsorted⟩ := ih (max_heapify d (i + 1) (_swap array 0 (i + 1)) 0)
      (by rw [max_heapify_length, length_swap]; exact hlen) (by omega) hm' hI2' hI3'
    exact ⟨hperm.trans ((max_heapify_perm d (i + 1) _ 0
        (by rw [length_swap]; omega)).trans (perm_swap (by omega) (by omega))),
      hlen', hsorted⟩

theorem heap_sort_sorted (h : Heap) (array : List Key) (hd : 2 ≤ h._children) :
    ((heap_sort h array).2).Perm array
    ∧ ((heap_sort h array).2).Pairwise (fun a b : Key => a ≤ b) := by
  have hres : (heap_sort h array).2 =
      heap_sort_loop h._children
        (build_max_heap { h with _heap_size := array.length } array)._heap
        (array.length - 1) := rfl
  obtain ⟨hbm, hbp⟩ :=
    build_max_heap_heap { h with _heap_size := array.length } array hd (le_refl _)
  have hbm' : MaxHeapProp h._children array.length
      (build_max_heap { h with _heap_size := array.length } array)._heap := hbm
  rcases Nat.eq_zero_or_pos array.length with hn0 | hnpos
  · have hae : array = [] := List.length_eq_zero.mp hn0
    subst hae
    have hbe : (build_max_heap { h with _heap_size := ([] : List Key).length } [])._heap = [] :=
      hbp.eq_nil
    rw [hres, hbe]
    exact ⟨List.Perm.refl _, List.Pairwise.nil⟩
  · obtain ⟨hperm, hlen', hsorted⟩ := heap_sort_loop_correct h._children (by omega)
      array.length (array.length - 1)
      (build_max_heap { h with _heap_size := array.length } array)._heap
      hbp.length_eq (le_refl _)
      (by rw [Nat.sub_add_cancel hnpos]; exact hbm')
      (fun j k' h1 h2 h3 => absurd h3 (by omega))
      (fun j m h1 h2 h3 => absurd h3 (by omega))
    rw [hres]
    refine ⟨hperm.trans hbp, ?_⟩
    rw [List.pairwise_iff_getElem]
    intro a b ha hb hab
    have hb' : b < array.length := by rw [← hlen']; exact hb
    have hs := hsorted a b (le_of_lt hab) hb'
    rw [List.getD_eq_getElem _ 0 ha, List.getD_eq_getElem _ 0 hb] at hs
    exact hs

/-- C8: `heap_sort` rearranges the list into non-decreasing order; the result
is a permutation of the input multiset; consequently it is idempotent:
sorting an already-sorted output yields the same sequence. -/
theorem heap_sort_correct (h : Heap) (array : List Key) (hd : 2 ≤ h._children) :
    ((heap_sort h array).2).Perm array
    ∧ ((heap_sort h array).2).Pairwise (fun a b : Key => a ≤ b)
    ∧ (∀ h2 : Heap, 2 ≤ h2._children →
        (heap_sort h2 (heap_sort h array).2).2 = (heap_sort h array).2) := by
  obtain ⟨hp, hs⟩ := heap_sort_sorted h array hd
  refine ⟨hp, hs, ?_⟩
  intro h2 hd2
  obtain ⟨hp2, hs2⟩ := heap_sort_sorted h2 (heap_sort h array).2 hd2
  exact List.eq_of_perm_of_sorted hp2 hs2 hs

theorem heap_sort_correct_witness :
    2 ≤ ({ _heap := [], _heap_size := 0, _children := 2 } : Heap)._children
    ∧ ((heap_sort { _heap := [], _heap_size := 0, _children := 2 } [3, 1, 2]).2).Perm
        [3, 1, 2] :=
  ⟨by decide,
    (heap_sort_correct { _heap := [], _heap_size := 0, _children := 2 } [3, 1, 2]
      (by decide)).1⟩

end DAryHeap
